import Mathlib

/-!
Verification of the CatsTrie autocomplete structure (src/CatsTrie.py).

The Python program builds a 27-ary trie (terminal marker at slot 0, letters
at slots 1..26) over lowercase sentences.  Each node carries a cached
best-child pointer and the frequency of the best completion in its subtree;
`update_nodes` repairs the cache along the inserted path after every
insertion, and `autoComplete` walks the prompt and then follows the cached
pointers.

The embedding below is a shallow functional translation: the mutable node
graph is a strict out-tree (children are owned by their parents and links
are never reassigned), so Python's in-place field updates along the
inserted path become a structural recursion that rebuilds exactly the
nodes on that path.  The Python `best_child` reference always points at
one of the node's own `links` entries, so it is represented by the slot
index of that entry.  Python list indexing in `autoComplete` is modelled
with its real semantics (negative indices wrap, out-of-range raises), and
exceptions are modelled as `Except.error`.
-/

namespace Cats

/-- The `Node` class: `links` (27 optional children), `char`, `word`,
`word_freq` and `best_child` (the slot index of the referenced child). -/
inductive Node where
  | mk (char : Char) (links : List (Option Node)) (word : Option String)
       (word_freq : Nat) (best_child : Option Nat)

/-- Field `char` of a node. -/
def Node.char : Node → Char
  | .mk c _ _ _ _ => c

/-- Field `links` of a node. -/
def Node.links : Node → List (Option Node)
  | .mk _ l _ _ _ => l

/-- Field `word` of a node. -/
def Node.word : Node → Option String
  | .mk _ _ w _ _ => w

/-- Field `word_freq` of a node. -/
def Node.word_freq : Node → Nat
  | .mk _ _ _ f _ => f

/-- Field `best_child` of a node. -/
def Node.best_child : Node → Option Nat
  | .mk _ _ _ _ b => b

/-- `Node.__init__`: fresh node for a character, 27 empty links, no word,
frequency 0, no best child. -/
def newNode (c : Char) : Node :=
  Node.mk c (List.replicate 27 none) none 0 none

/-- The child slot `ord(char) - 97 + 1` used by insertion, as a natural
number (insertion is only ever invoked on lowercase sentences, where this
agrees with Python). -/
def chIdx (c : Char) : Nat :=
  c.toNat - 97 + 1

/-- The child slot `ord(char) - 97 + 1` computed by `autoComplete`, kept as
an integer because Python list indexing accepts negative values. -/
def charIndex (c : Char) : Int :=
  (c.toNat : Int) - 97 + 1

/-- Python semantics of `links[i]` on a list: indices `0 ≤ i < len` read
directly, `-len ≤ i < 0` wrap to `len + i`, anything else raises
`IndexError` (modelled as `none`). -/
def pyGet (l : List (Option Node)) (i : Int) : Option (Option Node) :=
  if 0 ≤ i ∧ i < (l.length : Int) then some (l.getD i.toNat none)
  else if -(l.length : Int) ≤ i ∧ i < 0 then
    some (l.getD (l.length - (-i).toNat) none)
  else none

/-- Rebuild a node with the child in slot `j` replaced by `g` of itself;
if the slot is empty the node is returned unchanged.  This is the
functional counterpart of mutating the child object reached through
`links[j]`. -/
def modifyLink (n : Node) (j : Nat) (g : Node → Node) : Node :=
  match n.links.getD j none with
  | none => n
  | some ch =>
      Node.mk n.char (n.links.set j (some (g ch))) n.word n.word_freq n.best_child

/-- The tree-growing part of `insert_iterative`: walk the sentence,
creating missing letter nodes, create the terminal if missing, increment
its `word_freq` and set its `word` to the sentence.  Returns the updated
node together with the terminal's new frequency (the value
`nodes_to_update[-1].word_freq` that `update_nodes` reads). -/
def grow (n : Node) (cs : List Char) (sentence : String) : Node × Nat :=
  match cs with
  | [] =>
      let t := (n.links.getD 0 none).getD (newNode '$')
      let t2 := Node.mk t.char t.links (some sentence) (t.word_freq + 1) t.best_child
      (Node.mk n.char (n.links.set 0 (some t2)) n.word n.word_freq n.best_child,
       t2.word_freq)
  | c :: rest =>
      let ch := (n.links.getD (chIdx c) none).getD (newNode c)
      let g := grow ch rest sentence
      (Node.mk n.char (n.links.set (chIdx c) (some g.1)) n.word n.word_freq n.best_child,
       g.2)

/-- Body of the first `update_nodes` loop at one path node: a node whose
`best_child` is still unset is seeded with the next path slot `j` and the
inserted word's frequency `f`. -/
def seed (n : Node) (j : Nat) (f : Nat) : Node :=
  match n.best_child with
  | none => Node.mk n.char n.links n.word f (some j)
  | some _ => n

/-- Body of the second `update_nodes` loop at one path node: compare the
inserted frequency `f` with the current best child's `word_freq`; on a
strict win move `best_child` to the path slot `j` and raise `word_freq`,
on a tie move `best_child` to `j` when the path child's character is
lexicographically smaller. -/
def compareStep (n : Node) (j : Nat) (f : Nat) : Node :=
  match n.best_child with
  | none => n
  | some b =>
      match n.links.getD b none, n.links.getD j none with
      | some bc, some nc =>
          if f > bc.word_freq then Node.mk n.char n.links n.word f (some j)
          else if f = bc.word_freq ∧ nc.char < bc.char then
            Node.mk n.char n.links n.word n.word_freq (some j)
          else n
      | _, _ => n

/-- First `update_nodes` loop (`for i in range(len(nodes_to_update)-1)`):
seed every path node, in root-to-leaf order, pairing each node with the
next slot on the path (`0` for the terminal below the last letter). -/
def pass1 (n : Node) (cs : List Char) (f : Nat) : Node :=
  match cs with
  | [] => seed n 0 f
  | c :: rest => modifyLink (seed n (chIdx c) f) (chIdx c) (fun ch => pass1 ch rest f)

/-- Second `update_nodes` loop: the comparison pass over the same pairs,
again in root-to-leaf order, so each node decides against its children's
states from before their own comparison step, exactly as the sequential
Python loop does. -/
def pass2 (n : Node) (cs : List Char) (f : Nat) : Node :=
  match cs with
  | [] => compareStep n 0 f
  | c :: rest => modifyLink (compareStep n (chIdx c) f) (chIdx c) (fun ch => pass2 ch rest f)

/-- The trailing fixup of `update_nodes`: on the node immediately above the
terminal (`nodes_to_update[-2]`), raise `word_freq` to `f` when `f` is
strictly greater. -/
def fixupLast (n : Node) (cs : List Char) (f : Nat) : Node :=
  match cs with
  | [] => if f > n.word_freq then Node.mk n.char n.links n.word f n.best_child else n
  | c :: rest => modifyLink n (chIdx c) (fun ch => fixupLast ch rest f)

/-- `update_nodes`: the two loops followed by the fixup. -/
def update_nodes (n : Node) (cs : List Char) (f : Nat) : Node :=
  fixupLast (pass2 (pass1 n cs f) cs f) cs f

/-- `insert_iterative`: grow the tree along the sentence, then repair the
cache along the inserted path with the terminal's new frequency. -/
def insert_iterative (root : Node) (sentence : String) : Node :=
  let g := grow root sentence.data sentence
  update_nodes g.1 sentence.data g.2

/-- The root node made by `CatsTrie.__init__`. -/
def rootNode : Node :=
  Node.mk 'R' (List.replicate 27 none) none 0 none

/-- `CatsTrie.__init__`: insert every sentence in order. -/
def buildTrie (sentences : List String) : Node :=
  sentences.foldl insert_iterative rootNode

/-- A child reached through `links.getD` is structurally smaller than its
parent; used for termination of the best-child chase. -/
theorem sizeOf_getD_lt (n : Node) (j : Nat) (ch : Node)
    (h : n.links.getD j none = some ch) : sizeOf ch < sizeOf n := by
  have hmem : some ch ∈ n.links := by
    rcases hg : n.links[j]? with _ | o
    · rw [List.getD_eq_getElem?_getD, hg] at h; exact absurd h (by simp)
    · have hm : o ∈ n.links := List.getElem?_mem hg
      rw [List.getD_eq_getElem?_getD, hg] at h
      simp only [Option.getD_some] at h
      rwa [h] at hm
  have h1 : sizeOf (some ch) < sizeOf n.links := List.sizeOf_lt_of_mem hmem
  rw [Option.some.sizeOf_spec] at h1
  cases n with
  | mk c l w f b =>
      simp only [Node.links] at h1
      simp only [Node.mk.sizeOf_spec]
      omega

/-- The `while current.char != '$'` loop of `autoComplete`, started from
the node reached after the prompt: step to `best_child`, return the stored
`word` at the terminal.  A missing `best_child` is Python's
`AttributeError` on `None`. -/
def followLoop (n : Node) : Except String (Option String) :=
  match n.best_child with
  | none => .error "AttributeError"
  | some j =>
      match h : n.links.getD j none with
      | none => .error "AttributeError"
      | some ch => if ch.char = '$' then .ok ch.word else followLoop ch
  termination_by sizeOf n
  decreasing_by exact sizeOf_getD_lt n j ch h

/-- The prompt-walking loop of `autoComplete`, with Python's list-index
semantics: an absent child returns `None` (no match), an out-of-range
index raises `IndexError`. -/
def walkPrompt (n : Node) (cs : List Char) : Except String (Option String) :=
  match cs with
  | [] => followLoop n
  | c :: rest =>
      match pyGet n.links (charIndex c) with
      | none => .error "IndexError"
      | some none => .ok none
      | some (some ch) => walkPrompt ch rest

/-- `CatsTrie.autoComplete`. -/
def autoComplete (t : Node) (prompt : String) : Except String (Option String) :=
  walkPrompt t prompt.data

/-- Address a node by the list of link slots leading to it. -/
def nodeAt (n : Node) : List Nat → Option Node
  | [] => some n
  | j :: js =>
      match n.links.getD j none with
      | none => none
      | some ch => nodeAt ch js

/-- The slot addresses of a sentence's letter path. -/
def pathIdx (s : String) : List Nat :=
  s.data.map chIdx

/-- The node-valued version of the best-child chase: the terminal node the
query loop stops at, if the chain is well formed. -/
def chaseNode (n : Node) : Option Node :=
  match n.best_child with
  | none => none
  | some j =>
      match h : n.links.getD j none with
      | none => none
      | some ch => if ch.char = '$' then some ch else chaseNode ch
  termination_by sizeOf n
  decreasing_by exact sizeOf_getD_lt n j ch h

/-- State-threaded rendition of `autoComplete`: the trie object is carried
through every step of the query so that the absence of mutation is an
explicit statement rather than a typing accident. -/
def walkSt (t : Node) (n : Node) (cs : List Char) :
    Except String (Option String) × Node :=
  match cs with
  | [] => (followLoop n, t)
  | c :: rest =>
      match pyGet n.links (charIndex c) with
      | none => (.error "IndexError", t)
      | some none => (.ok none, t)
      | some (some ch) => walkSt t ch rest

/-- `autoComplete` with the trie state threaded through. -/
def autoCompleteSt (t : Node) (prompt : String) :
    Except String (Option String) × Node :=
  walkSt t t prompt.data

/-! ### The cache repair as worded by the specification

The specification describes the comparison pass as running over the pairs
`(P[i], P[i+1])` for `i` from `0` to `k-1` only, explicitly excluding the
pair formed by the parent of the terminal and the terminal, with the
parent of the terminal handled by a separate fixup that only updates its
occurrence count.  `pass2Spec` is that comparison pass; `specRepair` is
the whole repair as so specified. -/

/-- Modelled from the spec: the comparison pass restricted to the pairs
`(P[i], P[i+1])` for `i` from `0` to `k-1`, so the node above the terminal
is not compared against the terminal at all. -/
def pass2Spec (n : Node) (cs : List Char) (f : Nat) : Node :=
  match cs with
  | [] => n
  | c :: rest => modifyLink (compareStep n (chIdx c) f) (chIdx c) (fun ch => pass2Spec ch rest f)

/-- Modelled from the spec: initialization pass, restricted comparison
pass, then the parent-of-terminal fixup of the occurrence count. -/
def specRepair (n : Node) (cs : List Char) (f : Nat) : Node :=
  fixupLast (pass2Spec (pass1 n cs f) cs f) cs f

/-- Insertion with the cache repair performed exactly as the specification
words it. -/
def insertSpec (root : Node) (sentence : String) : Node :=
  let g := grow root sentence.data sentence
  specRepair g.1 sentence.data g.2

/-- The amended reading of the specification's repair: the comparison pass
runs over all consecutive pairs including the terminal pair, and the
separate parent-of-terminal fixup still only raises the occurrence count.
Written as its own recursion so that its agreement with the implemented
`update_nodes` is a statement about two independent definitions. -/
def pass2Amended (n : Node) (cs : List Char) (f : Nat) : Node :=
  match cs with
  | [] => compareStep n 0 f
  | c :: rest =>
      modifyLink (compareStep n (chIdx c) f) (chIdx c) (fun ch => pass2Amended ch rest f)

/-- The whole repair under the amended reading. -/
def specRepairAmended (n : Node) (cs : List Char) (f : Nat) : Node :=
  fixupLast (pass2Amended (pass1 n cs f) cs f) cs f

/-! ### Semantic layer: counts, completions and the best sentence -/

/-- A lowercase letter. -/
def LC (c : Char) : Prop :=
  97 ≤ c.toNat ∧ c.toNat ≤ 122

instance : DecidablePred LC := fun c => by unfold LC; infer_instance

/-- A sentence over the corpus alphabet. -/
def ValidS (s : String) : Prop :=
  ∀ c ∈ s.data, LC c

instance : DecidablePred ValidS := fun s => by unfold ValidS; infer_instance

/-- A corpus whose sentences are all over the alphabet. -/
def ValidL (l : List String) : Prop :=
  ∀ s ∈ l, ValidS s

instance : DecidablePred ValidL := fun l => by unfold ValidL; infer_instance

/-- Occurrence count of the sentence spelled by a character list. -/
def cnt (l : List String) (q : List Char) : Nat :=
  l.count (String.mk q)

/-- The corpus sentences having `q` as a prefix of their character list. -/
def comps (l : List String) (q : List Char) : List String :=
  l.filter (fun s => q.isPrefixOf s.data)

/-- The highest occurrence count among the completions of `q` (0 when
there are none). -/
def maxCount (l : List String) (q : List Char) : Nat :=
  (comps l q).foldr (fun s m => max (l.count s) m) 0

/-- The character represented by child slot `j`: the terminal marker for
slot 0, letters for slots 1..26. -/
def symChar (j : Nat) : Char :=
  if j = 0 then '$' else Char.ofNat (96 + j)

/-- The best frequency reachable through child slot `j` of the node at
`q`: the count of `q` itself through the terminal slot, the subtree
maximum through a letter slot. -/
def branchCount (l : List String) (q : List Char) (j : Nat) : Nat :=
  if j = 0 then cnt l q else maxCount l (q ++ [symChar j])

/-- Least `j` below the bound satisfying `p`. -/
def leastBelow (p : Nat → Bool) : Nat → Option Nat
  | 0 => none
  | n + 1 =>
      match leastBelow p n with
      | some j => some j
      | none => if p n then some n else none

/-- The child slot a correctly cached node at `q` must point at: the least
slot whose branch attains the subtree's maximal frequency. -/
def bestIdx (l : List String) (q : List Char) : Nat :=
  (leastBelow (fun j => branchCount l q j == maxCount l q) 27).getD 0

/-- Strict lexicographic order on character lists, as Python compares
strings (pointwise code-point order, a proper prefix precedes its
extensions). -/
def lexLt (a b : List Char) : Prop :=
  List.Lex (· < ·) a b

instance (a b : List Char) : Decidable (lexLt a b) := by
  unfold lexLt; infer_instance

/-- `w` is the answer the specification demands for prompt `q`: a
completion of `q`, of maximal occurrence count, lexicographically least
among the completions tied at that count. -/
def IsBest (l : List String) (q : List Char) (w : String) : Prop :=
  w ∈ l ∧ q <+: w.data ∧
    (∀ s ∈ l, q <+: s.data → l.count s ≤ l.count w) ∧
    (∀ s ∈ l, q <+: s.data → l.count s = l.count w → w = s ∨ lexLt w.data s.data)

/-! ### The cache invariant

`Inv l q n` pins down every field of the node sitting at prefix `q` of a
trie built from corpus `l`: which children exist, the exact terminal
child, the cached frequency (the subtree's maximal count) and the cached
best child (the least slot attaining it). -/

/-- The exact terminal child demanded below the node at `q`. -/
def terminalNode (l : List String) (q : List Char) : Node :=
  Node.mk '$' (List.replicate 27 none) (some (String.mk q)) (cnt l q) none

/-- The cache invariant, stated for the node at prefix `q`. -/
inductive Inv (l : List String) : List Char → Node → Prop where
  | intro (q : List Char) (n : Node)
      (hlen : n.links.length = 27)
      (hword : n.word = none)
      (hlive : ∀ j, j < 27 → ((n.links.getD j none).isSome ↔ 0 < branchCount l q j))
      (hterm : 0 < cnt l q → n.links.getD 0 none = some (terminalNode l q))
      (hfreq : n.word_freq = maxCount l q)
      (hbest : n.best_child = if maxCount l q = 0 then none else some (bestIdx l q))
      (hchar : ∀ j ch, 1 ≤ j → j < 27 → n.links.getD j none = some ch →
         ch.char = symChar j)
      (hchild : ∀ j ch, 1 ≤ j → j < 27 → n.links.getD j none = some ch →
         Inv l (q ++ [symChar j]) ch) :
      Inv l q n

/-! ### Basic lemmas about nodes, links and the elementary operations -/

@[simp] theorem char_mk (c l w f b) : (Node.mk c l w f b).char = c := rfl

@[simp] theorem links_mk (c l w f b) : (Node.mk c l w f b).links = l := rfl

@[simp] theorem word_mk (c l w f b) : (Node.mk c l w f b).word = w := rfl

@[simp] theorem word_freq_mk (c l w f b) : (Node.mk c l w f b).word_freq = f := rfl

@[simp] theorem best_child_mk (c l w f b) : (Node.mk c l w f b).best_child = b := rfl

theorem node_ext (n m : Node) (h1 : n.char = m.char) (h2 : n.links = m.links)
    (h3 : n.word = m.word) (h4 : n.word_freq = m.word_freq)
    (h5 : n.best_child = m.best_child) : n = m := by
  cases n; cases m
  simp only [char_mk, links_mk, word_mk, word_freq_mk, best_child_mk] at h1 h2 h3 h4 h5
  subst h1; subst h2; subst h3; subst h4; subst h5; rfl

theorem getD_set_self (l : List (Option Node)) (j : Nat) (v : Option Node)
    (h : j < l.length) : (l.set j v).getD j none = v := by
  rw [List.getD_eq_getElem?_getD, List.getElem?_set_self h]; rfl

theorem getD_set_ne (l : List (Option Node)) (i j : Nat) (v : Option Node)
    (h : i ≠ j) : (l.set j v).getD i none = l.getD i none := by
  rw [List.getD_eq_getElem?_getD, List.getElem?_set_ne (by omega),
    ← List.getD_eq_getElem?_getD]

theorem getD_replicate (j : Nat) :
    (List.replicate 27 (none : Option Node)).getD j none = none := by
  rw [List.getD_eq_getElem?_getD, List.getElem?_replicate]
  split <;> rfl

theorem lt_length_of_getD_some (l : List (Option Node)) (j : Nat) (ch : Node)
    (h : l.getD j none = some ch) : j < l.length := by
  by_contra hge
  rw [List.getD_eq_getElem?_getD, List.getElem?_eq_none (by omega)] at h
  exact absurd h (by simp)

theorem seed_char (n j f) : (seed n j f).char = n.char := by
  unfold seed; cases n.best_child <;> simp

theorem seed_links (n j f) : (seed n j f).links = n.links := by
  unfold seed; cases n.best_child <;> simp

theorem seed_word (n j f) : (seed n j f).word = n.word := by
  unfold seed; cases n.best_child <;> simp

theorem compareStep_char (n j f) : (compareStep n j f).char = n.char := by
  unfold compareStep
  split
  · rfl
  · split
    · split
      · rfl
      · split <;> rfl
    · rfl

theorem compareStep_links (n j f) : (compareStep n j f).links = n.links := by
  unfold compareStep
  split
  · rfl
  · split
    · split
      · rfl
      · split <;> rfl
    · rfl

theorem compareStep_word (n j f) : (compareStep n j f).word = n.word := by
  unfold compareStep
  split
  · rfl
  · split
    · split
      · rfl
      · split <;> rfl
    · rfl

theorem modifyLink_char (n j g) : (modifyLink n j g).char = n.char := by
  unfold modifyLink; cases n.links.getD j none <;> simp

theorem modifyLink_word (n j g) : (modifyLink n j g).word = n.word := by
  unfold modifyLink; cases n.links.getD j none <;> simp

theorem modifyLink_word_freq (n j g) : (modifyLink n j g).word_freq = n.word_freq := by
  unfold modifyLink; cases n.links.getD j none <;> simp

theorem modifyLink_best_child (n j g) : (modifyLink n j g).best_child = n.best_child := by
  unfold modifyLink; cases n.links.getD j none <;> simp

theorem modifyLink_length (n j g) : (modifyLink n j g).links.length = n.links.length := by
  unfold modifyLink
  cases n.links.getD j none <;> simp

theorem modifyLink_getD_ne (n j g i) (h : i ≠ j) :
    (modifyLink n j g).links.getD i none = n.links.getD i none := by
  unfold modifyLink
  cases n.links.getD j none with
  | none => rfl
  | some ch => simp only [links_mk]; exact getD_set_ne _ _ _ _ h

theorem modifyLink_getD_self (n j g ch) (h : n.links.getD j none = some ch) :
    (modifyLink n j g).links.getD j none = some (g ch) := by
  unfold modifyLink
  rw [h]
  simp only [links_mk]
  exact getD_set_self _ _ _ (lt_length_of_getD_some _ _ _ h)

theorem modifyLink_of_none (n j g) (h : n.links.getD j none = none) :
    modifyLink n j g = n := by
  unfold modifyLink; rw [h]

theorem modifyLink_modifyLink (n j g h) :
    modifyLink (modifyLink n j g) j h = modifyLink n j (fun x => h (g x)) := by
  cases hc : n.links.getD j none with
  | none => rw [modifyLink_of_none _ _ _ hc, modifyLink_of_none _ _ _ hc,
      modifyLink_of_none _ _ _ hc]
  | some ch =>
      have hlt := lt_length_of_getD_some _ _ _ hc
      have h1 : modifyLink n j g
          = Node.mk n.char (n.links.set j (some (g ch))) n.word n.word_freq n.best_child := by
        unfold modifyLink; rw [hc]
      have h2 : modifyLink n j (fun x => h (g x))
          = Node.mk n.char (n.links.set j (some (h (g ch)))) n.word n.word_freq n.best_child := by
        unfold modifyLink; rw [hc]
      have h3 : (Node.mk n.char (n.links.set j (some (g ch))) n.word n.word_freq
            n.best_child).links.getD j none = some (g ch) := by
        simp only [links_mk]
        exact getD_set_self _ _ _ hlt
      rw [h1]
      unfold modifyLink
      rw [h3, hc]
      simp [List.set_set]

theorem pass1_char (n cs f) : (pass1 n cs f).char = n.char := by
  cases cs <;> simp [pass1, modifyLink_char, seed_char]

theorem pass1_word (n cs f) : (pass1 n cs f).word = n.word := by
  cases cs <;> simp [pass1, modifyLink_word, seed_word]

theorem seed_word_freq (n j f) :
    (seed n j f).word_freq = if n.best_child = none then f else n.word_freq := by
  unfold seed; cases hb : n.best_child <;> simp [hb]

theorem seed_best_child (n j f) :
    (seed n j f).best_child = if n.best_child = none then some j else n.best_child := by
  unfold seed; cases hb : n.best_child <;> simp [hb]

theorem pass1_word_freq (n cs f) :
    (pass1 n cs f).word_freq = if n.best_child = none then f else n.word_freq := by
  cases cs <;> simp [pass1, modifyLink_word_freq, seed_word_freq]

theorem pass2_char (n cs f) : (pass2 n cs f).char = n.char := by
  cases cs <;> simp [pass2, modifyLink_char, compareStep_char]

theorem pass2_word (n cs f) : (pass2 n cs f).word = n.word := by
  cases cs <;> simp [pass2, modifyLink_word, compareStep_word]

theorem fixupLast_char (n cs f) : (fixupLast n cs f).char = n.char := by
  cases cs <;> simp only [fixupLast, modifyLink_char]
  split <;> simp

theorem fixupLast_word (n cs f) : (fixupLast n cs f).word = n.word := by
  cases cs <;> simp only [fixupLast, modifyLink_word]
  split <;> simp

theorem update_nodes_char (n cs f) : (update_nodes n cs f).char = n.char := by
  simp [update_nodes, fixupLast_char, pass2_char, pass1_char]

theorem update_nodes_word (n cs f) : (update_nodes n cs f).word = n.word := by
  simp [update_nodes, fixupLast_word, pass2_word, pass1_word]

theorem grow_char (n cs s) : (grow n cs s).1.char = n.char := by
  cases cs <;> simp [grow]

theorem grow_word (n cs s) : (grow n cs s).1.word = n.word := by
  cases cs <;> simp [grow]

theorem grow_word_freq (n cs s) : (grow n cs s).1.word_freq = n.word_freq := by
  cases cs <;> simp [grow]

theorem grow_best_child (n cs s) : (grow n cs s).1.best_child = n.best_child := by
  cases cs <;> simp [grow]

theorem insert_char (t s) : (insert_iterative t s).char = t.char := by
  simp [insert_iterative, update_nodes_char, grow_char]

theorem buildTrie_char (l : List String) : (buildTrie l).char = 'R' := by
  suffices h : ∀ n : Node, (l.foldl insert_iterative n).char = n.char by
    exact h rootNode
  induction l with
  | nil => intro n; rfl
  | cons s tl ih => intro n; rw [List.foldl_cons, ih, insert_char]

/-! ### Lemmas about counts, completions and branch frequencies -/

theorem str_data_inj {a b : String} (h : a.data = b.data) : a = b := by
  cases a; cases b; exact congrArg String.mk h

theorem mem_comps {l : List String} {q : List Char} {s : String} :
    s ∈ comps l q ↔ s ∈ l ∧ q <+: s.data := by
  unfold comps
  rw [List.mem_filter]
  simp [List.isPrefixOf_iff_prefix]

theorem le_foldr_max (f : String → Nat) (xs : List String) (a : String) (ha : a ∈ xs) :
    f a ≤ xs.foldr (fun x m => max (f x) m) 0 := by
  induction xs with
  | nil => cases ha
  | cons x tl ih =>
      rcases List.mem_cons.mp ha with h | h
      · subst h; simp only [List.foldr_cons]; omega
      · have := ih h; simp only [List.foldr_cons]; omega

theorem foldr_max_attained (f : String → Nat) (xs : List String) :
    xs.foldr (fun x m => max (f x) m) 0 = 0 ∨
      ∃ a ∈ xs, f a = xs.foldr (fun x m => max (f x) m) 0 := by
  induction xs with
  | nil => left; rfl
  | cons x tl ih =>
      simp only [List.foldr_cons]
      rcases le_or_lt (f x) (tl.foldr (fun x m => max (f x) m) 0) with h | h
      · rcases ih with h0 | ⟨a, ha, hfa⟩
        · left; omega
        · right; exact ⟨a, List.mem_cons_of_mem _ ha, by omega⟩
      · right; exact ⟨x, List.mem_cons_self _ _, by omega⟩

theorem le_maxCount {l : List String} {q : List Char} {s : String}
    (hs : s ∈ l) (hp : q <+: s.data) : l.count s ≤ maxCount l q := by
  unfold maxCount
  exact le_foldr_max (fun s => l.count s) _ _ (mem_comps.mpr ⟨hs, hp⟩)

theorem maxCount_attained {l : List String} {q : List Char} (h : 0 < maxCount l q) :
    ∃ s, s ∈ l ∧ q <+: s.data ∧ l.count s = maxCount l q := by
  rcases foldr_max_attained (fun s => l.count s) (comps l q) with h0 | ⟨a, ha, hfa⟩
  · unfold maxCount at h; rw [h0] at h; omega
  · rcases mem_comps.mp ha with ⟨h1, h2⟩; exact ⟨a, h1, h2, hfa⟩

theorem maxCount_pos {l : List String} {q : List Char}
    (h : ∃ s ∈ l, q <+: s.data) : 0 < maxCount l q := by
  rcases h with ⟨s, hs, hp⟩
  have h1 : 0 < l.count s := List.count_pos_iff.mpr hs
  exact lt_of_lt_of_le h1 (le_maxCount hs hp)

theorem maxCount_pos_iff {l : List String} {q : List Char} :
    0 < maxCount l q ↔ ∃ s ∈ l, q <+: s.data := by
  constructor
  · intro h
    rcases maxCount_attained h with ⟨s, h1, h2, _⟩
    exact ⟨s, h1, h2⟩
  · exact maxCount_pos

theorem cnt_le_maxCount (l : List String) (q : List Char) : cnt l q ≤ maxCount l q := by
  rcases Nat.eq_zero_or_pos (cnt l q) with h | h
  · omega
  · have hm : String.mk q ∈ l := List.count_pos_iff.mp h
    exact le_maxCount hm (by simp)

theorem maxCount_append_le (l : List String) (q x : List Char) :
    maxCount l (q ++ x) ≤ maxCount l q := by
  rcases Nat.eq_zero_or_pos (maxCount l (q ++ x)) with h | h
  · omega
  · rcases maxCount_attained h with ⟨s, hs, hp, he⟩
    rw [← he]
    exact le_maxCount hs (List.IsPrefix.trans (List.prefix_append q x) hp)

theorem branchCount_le (l : List String) (q : List Char) (j : Nat) :
    branchCount l q j ≤ maxCount l q := by
  unfold branchCount
  split
  · exact cnt_le_maxCount l q
  · exact maxCount_append_le l q _

/-! ### Character and slot arithmetic -/

theorem toNat_ofNat_valid (m : Nat) (h : m < 55296) : (Char.ofNat m).toNat = m := by
  simp [Char.ofNat, Nat.isValidChar, h, Char.toNat, Char.ofNatAux, UInt32.toNat,
    BitVec.toNat_ofNatLt]

theorem char_lt_iff_toNat (c d : Char) : c < d ↔ c.toNat < d.toNat := Iff.rfl

theorem lc_chIdx {c : Char} (h : LC c) : 1 ≤ chIdx c ∧ chIdx c ≤ 26 := by
  rcases h with ⟨h1, h2⟩; unfold chIdx; omega

theorem symChar_chIdx {c : Char} (h : LC c) : symChar (chIdx c) = c := by
  rcases h with ⟨h1, h2⟩
  unfold symChar chIdx
  rw [if_neg (by omega)]
  have he : 96 + (c.toNat - 97 + 1) = c.toNat := by omega
  rw [he]
  exact Char.ofNat_toNat c

theorem toNat_symChar {j : Nat} (h1 : 1 ≤ j) (h2 : j ≤ 26) :
    (symChar j).toNat = 96 + j := by
  unfold symChar
  rw [if_neg (by omega)]
  exact toNat_ofNat_valid _ (by omega)

theorem lc_symChar {j : Nat} (h1 : 1 ≤ j) (h2 : j ≤ 26) : LC (symChar j) := by
  constructor <;> rw [toNat_symChar h1 h2] <;> omega

theorem chIdx_symChar {j : Nat} (h1 : 1 ≤ j) (h2 : j ≤ 26) : chIdx (symChar j) = j := by
  unfold chIdx
  rw [toNat_symChar h1 h2]
  omega

theorem symChar_zero : symChar 0 = '$' := rfl

theorem dollar_toNat : ('$' : Char).toNat = 36 := rfl

theorem symChar_lt {i j : Nat} (hij : i < j) (hj : j ≤ 26) : symChar i < symChar j := by
  rw [char_lt_iff_toNat]
  have hjn : (symChar j).toNat = 96 + j := toNat_symChar (by omega) hj
  rcases Nat.eq_zero_or_pos i with h0 | hpos
  · subst h0; rw [symChar_zero, dollar_toNat, hjn]; omega
  · rw [toNat_symChar hpos (by omega), hjn]; omega

theorem symChar_inj {i j : Nat} (hi : i ≤ 26) (hj : j ≤ 26) (h : symChar i = symChar j) :
    i = j := by
  by_contra hne
  rcases Nat.lt_or_ge i j with hlt | hge
  · have := symChar_lt hlt hj; rw [h] at this; exact absurd this (lt_irrefl _)
  · have hlt : j < i := by omega
    have := symChar_lt hlt hi; rw [h] at this; exact absurd this (lt_irrefl _)

theorem symChar_ne_dollar {j : Nat} (h1 : 1 ≤ j) (h2 : j ≤ 26) : symChar j ≠ '$' := by
  intro h
  have := symChar_inj (by omega) (by omega) (h.trans symChar_zero.symm)
  omega

/-! ### Least-slot search -/

theorem leastBelow_none (p : Nat → Bool) :
    ∀ n, leastBelow p n = none → ∀ i, i < n → p i = false := by
  intro n
  induction n with
  | zero => intro _ i hi; omega
  | succ m ih =>
      intro h i hi
      unfold leastBelow at h
      cases hm : leastBelow p m with
      | some j => rw [hm] at h; cases h
      | none =>
          rw [hm] at h
          by_cases hp : p m
          · rw [if_pos hp] at h; cases h
          · rcases Nat.lt_succ_iff_lt_or_eq.mp hi with h2 | h2
            · exact ih hm i h2
            · subst h2; simpa using hp

theorem leastBelow_spec (p : Nat → Bool) :
    ∀ n j, leastBelow p n = some j →
      p j = true ∧ j < n ∧ ∀ i, i < j → p i = false := by
  intro n
  induction n with
  | zero => intro j h; cases h
  | succ m ih =>
      intro j h
      unfold leastBelow at h
      cases hm : leastBelow p m with
      | some j2 =>
          rw [hm] at h
          injection h with h
          subst h
          obtain ⟨ha, hb, hc⟩ := ih j2 hm
          exact ⟨ha, by omega, hc⟩
      | none =>
          rw [hm] at h
          by_cases hp : p m
          · rw [if_pos hp] at h
            injection h with h
            subst h
            exact ⟨hp, by omega, leastBelow_none p m hm⟩
          · rw [if_neg hp] at h; cases h

theorem leastBelow_isSome (p : Nat → Bool) (n : Nat)
    (h : ∃ j, j < n ∧ p j = true) : (leastBelow p n).isSome := by
  rcases h with ⟨j, hj, hp⟩
  cases hlb : leastBelow p n with
  | none =>
      have := leastBelow_none p n hlb j hj
      rw [hp] at this; cases this
  | some _ => rfl

theorem exists_branch_eq {l : List String} {q : List Char} (hl : ValidL l)
    (h : 0 < maxCount l q) :
    ∃ j, j < 27 ∧ branchCount l q j = maxCount l q := by
  obtain ⟨s, hs, hp, he⟩ := maxCount_attained h
  rcases hp with ⟨u, hu⟩
  cases u with
  | nil =>
      refine ⟨0, by omega, ?_⟩
      unfold branchCount
      rw [if_pos rfl]
      have hq : String.mk q = s := str_data_inj (by rw [← hu]; simp)
      unfold cnt
      rw [hq, he]
  | cons c u2 =>
      have hcm : c ∈ s.data := by rw [← hu]; simp
      have hc : LC c := hl s hs c hcm
      obtain ⟨hc1, hc2⟩ := lc_chIdx hc
      refine ⟨chIdx c, by omega, ?_⟩
      unfold branchCount
      rw [if_neg (by omega), symChar_chIdx hc]
      apply le_antisymm (maxCount_append_le l q [c])
      rw [← he]
      apply le_maxCount hs
      refine ⟨u2, ?_⟩
      rw [← hu]; simp

theorem bestIdx_spec {l : List String} {q : List Char} (hl : ValidL l)
    (h : 0 < maxCount l q) :
    branchCount l q (bestIdx l q) = maxCount l q ∧ bestIdx l q < 27 ∧
      ∀ i, i < bestIdx l q → branchCount l q i ≠ maxCount l q := by
  obtain ⟨j, hj27, hje⟩ := exists_branch_eq hl h
  have hsome := leastBelow_isSome (fun j => branchCount l q j == maxCount l q) 27
    ⟨j, hj27, by simpa using hje⟩
  cases hlb : leastBelow (fun j => branchCount l q j == maxCount l q) 27 with
  | none => rw [hlb] at hsome; cases hsome
  | some j0 =>
      obtain ⟨hp, hlt, hmin⟩ := leastBelow_spec _ 27 j0 hlb
      have hb : bestIdx l q = j0 := by unfold bestIdx; rw [hlb]; rfl
      rw [hb]
      refine ⟨by simpa using hp, hlt, ?_⟩
      intro i hi hcontra
      have := hmin i hi
      rw [hcontra] at this
      simp at this

/-! ### Count updates from appending one sentence, and count congruence -/

theorem count_append_one (l : List String) (s x : String) :
    (l ++ [s]).count x = l.count x + if x = s then 1 else 0 := by
  by_cases hxs : x = s
  · subst hxs; rw [List.count_append]; simp
  · rw [List.count_append, if_neg hxs]
    have h0 : List.count x [s] = 0 := by
      rw [List.count_eq_zero]
      simp [hxs]
    omega

theorem count_mono_append (l : List String) (s x : String) :
    l.count x ≤ (l ++ [s]).count x := by
  rw [count_append_one]; omega

theorem maxCount_le_append (l : List String) (s : String) (q : List Char) :
    maxCount l q ≤ maxCount (l ++ [s]) q := by
  rcases Nat.eq_zero_or_pos (maxCount l q) with h0 | hpos
  · omega
  · obtain ⟨x, hx, hp, he⟩ := maxCount_attained hpos
    calc maxCount l q = l.count x := he.symm
      _ ≤ (l ++ [s]).count x := count_mono_append l s x
      _ ≤ maxCount (l ++ [s]) q := le_maxCount (List.mem_append_left _ hx) hp

theorem maxCount_append_not {l : List String} {q : List Char} {s : String}
    (h : ¬ q <+: s.data) : maxCount (l ++ [s]) q = maxCount l q := by
  apply le_antisymm
  · rcases Nat.eq_zero_or_pos (maxCount (l ++ [s]) q) with h0 | hpos
    · omega
    · obtain ⟨x, hx, hp, he⟩ := maxCount_attained hpos
      rw [← he]
      have hxs : x ≠ s := fun hh => h (hh ▸ hp)
      have hxl : x ∈ l := by
        rcases List.mem_append.mp hx with h1 | h1
        · exact h1
        · simp at h1; exact absurd h1 hxs
      rw [count_append_one, if_neg hxs]
      simpa using le_maxCount hxl hp
  · exact maxCount_le_append l s q

theorem maxCount_append_pre {l : List String} {q : List Char} {s : String}
    (h : q <+: s.data) :
    maxCount (l ++ [s]) q = max (maxCount l q) (l.count s + 1) := by
  have hcount : (l ++ [s]).count s = l.count s + 1 := by
    rw [count_append_one, if_pos rfl]
  apply le_antisymm
  · rcases Nat.eq_zero_or_pos (maxCount (l ++ [s]) q) with h0 | hpos
    · omega
    · obtain ⟨x, hx, hp, he⟩ := maxCount_attained hpos
      rw [← he]
      by_cases hxs : x = s
      · subst hxs; rw [hcount]; omega
      · have hxl : x ∈ l := by
          rcases List.mem_append.mp hx with h1 | h1
          · exact h1
          · simp at h1; exact absurd h1 hxs
        rw [count_append_one, if_neg hxs]
        have := le_maxCount hxl hp
        omega
  · apply max_le
    · exact maxCount_le_append l s q
    · rw [← hcount]
      exact le_maxCount (by simp) h

theorem cnt_append (l : List String) (s : String) (q : List Char) :
    cnt (l ++ [s]) q = cnt l q + if String.mk q = s then 1 else 0 :=
  count_append_one l s (String.mk q)

theorem maxCount_congr {l l2 : List String} {q : List Char}
    (h : ∀ x, l.count x = l2.count x) : maxCount l q = maxCount l2 q := by
  have key : ∀ la lb : List String, (∀ x, la.count x = lb.count x) →
      maxCount la q ≤ maxCount lb q := by
    intro la lb hab
    rcases Nat.eq_zero_or_pos (maxCount la q) with h0 | hpos
    · omega
    · obtain ⟨x, hx, hp, he⟩ := maxCount_attained hpos
      rw [← he, hab]
      apply le_maxCount _ hp
      rw [← List.count_pos_iff, ← hab]
      exact List.count_pos_iff.mpr hx
  exact le_antisymm (key l l2 h) (key l2 l fun x => (h x).symm)

theorem branchCount_congr {l l2 : List String} {q : List Char}
    (h : ∀ x, l.count x = l2.count x) (j : Nat) :
    branchCount l q j = branchCount l2 q j := by
  unfold branchCount cnt
  split
  · exact h _
  · exact maxCount_congr h

theorem bestIdx_congr {l l2 : List String} {q : List Char}
    (h : ∀ x, l.count x = l2.count x) : bestIdx l q = bestIdx l2 q := by
  unfold bestIdx
  have he : (fun j => branchCount l q j == maxCount l q)
      = (fun j => branchCount l2 q j == maxCount l2 q) := by
    funext j
    rw [branchCount_congr h, maxCount_congr h]
  rw [he]

/-! ### Prefix and lexicographic order facts -/

theorem prefix_snoc_iff {q : List Char} {d c : Char} {rest : List Char} :
    (q ++ [d]) <+: (q ++ c :: rest) ↔ d = c := by
  rw [List.prefix_append_right_inj]
  constructor
  · rintro ⟨u, hu⟩
    simp only [List.cons_append, List.nil_append] at hu
    exact (List.cons.injEq _ _ _ _ ▸ hu).1
  · rintro rfl; exact ⟨rest, rfl⟩

theorem not_prefix_snoc {q : List Char} {d : Char} : ¬ (q ++ [d]) <+: q := by
  intro h
  have := h.length_le
  simp at this

theorem lexLt_append {q u v : List Char} (h : lexLt u v) : lexLt (q ++ u) (q ++ v) := by
  induction q with
  | nil => exact h
  | cons c tl ih => exact List.Lex.cons ih

theorem lexLt_of_pre_ne {a b : List Char} (hp : a <+: b) (hne : a ≠ b) : lexLt a b := by
  rcases hp with ⟨u, hu⟩
  subst hu
  cases u with
  | nil => simp at hne
  | cons c u2 =>
      clear hne
      induction a with
      | nil => exact List.Lex.nil
      | cons x tl ih => exact List.Lex.cons ih

theorem lexLt_heads {q : List Char} {c d : Char} {u v : List Char} (h : c < d) :
    lexLt (q ++ c :: u) (q ++ d :: v) :=
  lexLt_append (List.Lex.rel h)

theorem lexLt_asymm {a b : List Char} (h1 : lexLt a b) (h2 : lexLt b a) : False := by
  induction h1 with
  | nil => cases h2
  | @cons x l1 l2 hl ih =>
      cases h2 with
      | cons h2l => exact ih h2l
      | rel hr => exact absurd hr (lt_irrefl _)
  | @rel x y l1 l2 hr =>
      cases h2 with
      | cons h2l => exact absurd hr (lt_irrefl _)
      | rel hr2 =>
          rw [char_lt_iff_toNat] at hr hr2
          omega

/-! ### Invariant helpers -/

theorem validL_append {l : List String} {s : String} (hl : ValidL l) (hs : ValidS s) :
    ValidL (l ++ [s]) := by
  intro x hx
  rcases List.mem_append.mp hx with h | h
  · exact hl x h
  · simp at h; subst h; exact hs

theorem sizeOf_node_pos (n : Node) : 0 < sizeOf n := by
  cases n; simp only [Node.mk.sizeOf_spec]; omega

theorem inv_fresh (l : List String) (q : List Char) (c : Char)
    (h : maxCount l q = 0) : Inv l q (newNode c) := by
  have hbr : ∀ j, branchCount l q j = 0 := by
    intro j
    have := branchCount_le l q j
    omega
  have hrep : (newNode c).links = List.replicate 27 none := rfl
  refine Inv.intro q (newNode c) ?_ ?_ ?_ ?_ ?_ ?_ ?_ ?_
  · simp [newNode]
  · rfl
  · intro j hj
    rw [hrep, getD_replicate, hbr j]
    simp
  · intro hc
    have h1 := cnt_le_maxCount l q
    exact absurd hc (by omega)
  · show (0 : Nat) = maxCount l q
    omega
  · show (none : Option Nat) = _
    rw [if_pos h]
  · intro j ch h1 h2 h3
    rw [hrep, getD_replicate] at h3
    exact Option.noConfusion h3
  · intro j ch h1 h2 h3
    rw [hrep, getD_replicate] at h3
    exact Option.noConfusion h3

theorem terminalNode_congr {l l2 : List String} {q : List Char}
    (h : cnt l q = cnt l2 q) : terminalNode l q = terminalNode l2 q := by
  unfold terminalNode
  rw [h]

theorem inv_append_offpath (s : String) :
    ∀ k (n : Node) (l : List String) (q : List Char), sizeOf n ≤ k → Inv l q n →
      ¬ q <+: s.data → Inv (l ++ [s]) q n := by
  intro k
  induction k with
  | zero =>
      intro n _ _ hs
      have := sizeOf_node_pos n
      omega
  | succ m ih =>
      intro n l q hs hInv hnp
      cases hInv with
      | intro _ _ hlen hword hlive hterm hfreq hbest hchar hchild =>
          have hmax : maxCount (l ++ [s]) q = maxCount l q := maxCount_append_not hnp
          have hcnt : cnt (l ++ [s]) q = cnt l q := by
            have hne : String.mk q ≠ s := by
              intro hq
              apply hnp
              rw [← hq]
            rw [cnt_append, if_neg hne]
            omega
          have hbr : ∀ j, branchCount (l ++ [s]) q j = branchCount l q j := by
            intro j
            unfold branchCount
            split
            · exact hcnt
            · apply maxCount_append_not
              intro hpre
              exact hnp (List.IsPrefix.trans (List.prefix_append q _) hpre)
          have hbi : bestIdx (l ++ [s]) q = bestIdx l q := by
            unfold bestIdx
            have he : (fun j => branchCount (l ++ [s]) q j == maxCount (l ++ [s]) q)
                = (fun j => branchCount l q j == maxCount l q) := by
              funext j
              rw [hbr j, hmax]
            rw [he]
          refine Inv.intro q n hlen hword ?_ ?_ ?_ ?_ hchar ?_
          · intro j hj
            rw [hbr j]
            exact hlive j hj
          · intro hc
            rw [hcnt] at hc
            rw [hterm hc]
            exact congrArg some (terminalNode_congr hcnt.symm)
          · rw [hfreq, hmax]
          · rw [hbest, hmax, hbi]
          · intro j ch h1 h2 h3
            have hlt := sizeOf_getD_lt n j ch h3
            apply ih ch l (q ++ [symChar j]) (by omega) (hchild j ch h1 h2 h3)
            intro hpre
            exact hnp (List.IsPrefix.trans (List.prefix_append q _) hpre)

theorem bestIdx_eq {l : List String} {q : List Char} {j : Nat} (hl : ValidL l)
    (hmax : 0 < maxCount l q) (hj : j < 27)
    (hbr : branchCount l q j = maxCount l q)
    (hmin : ∀ i, i < j → branchCount l q i ≠ maxCount l q) : bestIdx l q = j := by
  obtain ⟨h1, h2, h3⟩ := bestIdx_spec hl hmax
  rcases Nat.lt_trichotomy (bestIdx l q) j with h | h | h
  · exact absurd h1 (hmin _ h)
  · exact h
  · exact absurd hbr (h3 j h)

theorem seed_of_some {n : Node} {b : Nat} (h : n.best_child = some b) (j f : Nat) :
    seed n j f = n := by
  unfold seed; rw [h]

theorem seed_of_none {n : Node} (h : n.best_child = none) (j f : Nat) :
    seed n j f = Node.mk n.char n.links n.word f (some j) := by
  unfold seed; rw [h]

theorem compareStep_resolved {n : Node} {j f b : Nat} {bc nc : Node}
    (hb : n.best_child = some b) (hbc : n.links.getD b none = some bc)
    (hnc : n.links.getD j none = some nc) :
    compareStep n j f =
      if f > bc.word_freq then Node.mk n.char n.links n.word f (some j)
      else if f = bc.word_freq ∧ nc.char < bc.char then
        Node.mk n.char n.links n.word n.word_freq (some j)
      else n := by
  unfold compareStep
  rw [hb]
  dsimp only
  rw [hbc, hnc]

theorem fixupLast_nil (n : Node) (f : Nat) :
    fixupLast n [] f =
      if f > n.word_freq then Node.mk n.char n.links n.word f n.best_child else n := rfl

theorem update_nodes_nil (n : Node) (f : Nat) :
    update_nodes n [] f = fixupLast (compareStep (seed n 0 f) 0 f) [] f := rfl

theorem mk_data (s : String) : String.mk s.data = s := by
  cases s; rfl

theorem cnt_eq_count (l : List String) (s : String) : cnt l s.data = l.count s := by
  unfold cnt
  rw [mk_data]

/-- Rebuild the invariant at the end of the inserted path: the node keeps
its character, word and off-terminal children, its terminal slot holds the
new terminal, and its cache fields carry the new maximum and best slot. -/
theorem inv_nil_common (l : List String) (s : String) (hl : ValidL l) (hs : ValidS s)
    (n : Node) (hInv : Inv l s.data n) (F B : Nat)
    (hF : F = maxCount (l ++ [s]) s.data)
    (hB : B = bestIdx (l ++ [s]) s.data) :
    Inv (l ++ [s]) s.data (Node.mk n.char
      (n.links.set 0 (some (terminalNode (l ++ [s]) s.data))) n.word F (some B)) := by
  cases hInv with
  | intro _ _ hlen hword hlive hterm hfreq hbest hchar hchild =>
      have hcnt : cnt (l ++ [s]) s.data = cnt l s.data + 1 := by
        rw [cnt_append, if_pos (mk_data s)]
      have hbri : ∀ i, 1 ≤ i → branchCount (l ++ [s]) s.data i = branchCount l s.data i := by
        intro i hi
        unfold branchCount
        rw [if_neg (by omega), if_neg (by omega)]
        exact maxCount_append_not not_prefix_snoc
      have hmaxpos : 0 < maxCount (l ++ [s]) s.data := by
        have h1 : branchCount (l ++ [s]) s.data 0 ≤ maxCount (l ++ [s]) s.data :=
          branchCount_le _ _ 0
        unfold branchCount at h1
        rw [if_pos rfl] at h1
        omega
      refine Inv.intro _ _ ?_ (by simpa using hword) ?_ ?_ (by simpa using hF) ?_ ?_ ?_
      · simp [hlen]
      · intro j hj
        rcases Nat.eq_zero_or_pos j with h0 | hpos
        · subst h0
          rw [links_mk, getD_set_self _ _ _ (by omega)]
          unfold branchCount
          rw [if_pos rfl]
          simp [hcnt]
        · rw [links_mk, getD_set_ne _ _ _ _ (by omega), hbri j hpos]
          exact hlive j hj
      · intro _
        rw [links_mk, getD_set_self _ _ _ (by omega)]
      · rw [best_child_mk, hB, if_neg (by omega)]
      · intro j ch h1 h2 h3
        rw [links_mk, getD_set_ne _ _ _ _ (by omega)] at h3
        exact hchar j ch h1 h2 h3
      · intro j ch h1 h2 h3
        rw [links_mk, getD_set_ne _ _ _ _ (by omega)] at h3
        exact inv_append_offpath s (sizeOf ch) ch l _ (le_refl _)
          (hchild j ch h1 h2 h3) not_prefix_snoc

/-- Rebuild the invariant at an inner node of the inserted path: the slot
of the next path character now holds the recursively updated child, and
the cache fields carry the new maximum and best slot. -/
theorem inv_cons_common (l : List String) (s : String) (hl : ValidL l) (hs : ValidS s)
    (q : List Char) (c : Char) (rest : List Char) (hsd : s.data = q ++ c :: rest)
    (hc : LC c) (n : Node) (hInv : Inv l q n)
    (CH : Node) (hCH : Inv (l ++ [s]) (q ++ [c]) CH) (hCHchar : CH.char = c)
    (F B : Nat) (hF : F = maxCount (l ++ [s]) q) (hB : B = bestIdx (l ++ [s]) q) :
    Inv (l ++ [s]) q (Node.mk n.char (n.links.set (chIdx c) (some CH)) n.word F (some B)) := by
  obtain ⟨hc1, hc2⟩ := lc_chIdx hc
  have hsym : symChar (chIdx c) = c := symChar_chIdx hc
  cases hInv with
  | intro _ _ hlen hword hlive hterm hfreq hbest hchar hchild =>
      have hqpre : q <+: s.data := ⟨c :: rest, hsd.symm⟩
      have hq1pre : (q ++ [c]) <+: s.data := ⟨rest, by rw [hsd]; simp⟩
      have hcnt : cnt (l ++ [s]) q = cnt l q := by
        have hne : String.mk q ≠ s := by
          intro hq
          have : s.data = q := by rw [← hq]
          rw [this] at hsd
          have := congrArg List.length hsd
          simp at this
        rw [cnt_append, if_neg hne]
        omega
      have hbri : ∀ i, i < 27 → i ≠ chIdx c →
          branchCount (l ++ [s]) q i = branchCount l q i := by
        intro i hi27 hi
        unfold branchCount
        split
        · exact hcnt
        · apply maxCount_append_not
          intro hpre
          rw [hsd] at hpre
          have : symChar i = c := prefix_snoc_iff.mp hpre
          apply hi
          rw [← hsym] at this
          exact symChar_inj (by omega) (by omega) this
      have hsl : s ∈ l ++ [s] := by simp
      have hbrj : branchCount (l ++ [s]) q (chIdx c) = maxCount (l ++ [s]) (q ++ [c]) := by
        unfold branchCount
        rw [if_neg (by omega), hsym]
      have hbrjpos : 0 < branchCount (l ++ [s]) q (chIdx c) := by
        rw [hbrj]
        exact maxCount_pos ⟨s, hsl, hq1pre⟩
      have hmaxpos : 0 < maxCount (l ++ [s]) q := by
        have := branchCount_le (l ++ [s]) q (chIdx c)
        omega
      refine Inv.intro _ _ ?_ (by simpa using hword) ?_ ?_ (by simpa using hF) ?_ ?_ ?_
      · simp [hlen]
      · intro j hj
        rcases eq_or_ne j (chIdx c) with he | hne
        · subst he
          rw [links_mk, getD_set_self _ _ _ (by omega)]
          simpa using hbrjpos
        · rw [links_mk, getD_set_ne _ _ _ _ hne, hbri j hj hne]
          exact hlive j hj
      · intro hpos
        rw [hcnt] at hpos
        rw [links_mk, getD_set_ne _ _ _ _ (by omega), hterm hpos]
        exact congrArg some (terminalNode_congr hcnt.symm)
      · rw [best_child_mk, hB, if_neg (by omega)]
      · intro j ch h1 h2 h3
        rcases eq_or_ne j (chIdx c) with he | hne
        · subst he
          rw [links_mk, getD_set_self _ _ _ (by omega)] at h3
          injection h3 with h3
          rw [← h3, hCHchar, hsym]
        · rw [links_mk, getD_set_ne _ _ _ _ hne] at h3
          exact hchar j ch h1 h2 h3
      · intro j ch h1 h2 h3
        rcases eq_or_ne j (chIdx c) with he | hne
        · subst he
          rw [links_mk, getD_set_self _ _ _ (by omega)] at h3
          injection h3 with h3
          rw [← h3, hsym]
          exact hCH
        · rw [links_mk, getD_set_ne _ _ _ _ hne] at h3
          apply inv_append_offpath s (sizeOf ch) ch l _ (le_refl _) (hchild j ch h1 h2 h3)
          intro hpre
          rw [hsd] at hpre
          have : symChar j = c := prefix_snoc_iff.mp hpre
          apply hne
          rw [← hsym] at this
          exact symChar_inj (by omega) (by omega) this

theorem update_nodes_cons (n : Node) (c : Char) (rest : List Char) (f : Nat) :
    update_nodes n (c :: rest) f =
      modifyLink (compareStep (modifyLink (seed n (chIdx c) f) (chIdx c)
          (fun ch => pass1 ch rest f)) (chIdx c) f) (chIdx c)
        (fun ch => fixupLast (pass2 ch rest f) rest f) := by
  unfold update_nodes
  show fixupLast (pass2 (modifyLink (seed n (chIdx c) f) (chIdx c)
      (fun ch => pass1 ch rest f)) (c :: rest) f) (c :: rest) f = _
  show fixupLast (modifyLink (compareStep (modifyLink (seed n (chIdx c) f) (chIdx c)
      (fun ch => pass1 ch rest f)) (chIdx c) f) (chIdx c)
      (fun ch => pass2 ch rest f)) (c :: rest) f = _
  show modifyLink (modifyLink (compareStep (modifyLink (seed n (chIdx c) f) (chIdx c)
      (fun ch => pass1 ch rest f)) (chIdx c) f) (chIdx c)
      (fun ch => pass2 ch rest f)) (chIdx c) (fun ch => fixupLast ch rest f) = _
  rw [modifyLink_modifyLink]

/-! ### Inversion accessors for the invariant -/

theorem inv_len {l : List String} {q : List Char} {n : Node} (h : Inv l q n) :
    n.links.length = 27 := by cases h; assumption

theorem inv_word {l : List String} {q : List Char} {n : Node} (h : Inv l q n) :
    n.word = none := by cases h; assumption

theorem inv_live {l : List String} {q : List Char} {n : Node} (h : Inv l q n) :
    ∀ j, j < 27 → ((n.links.getD j none).isSome ↔ 0 < branchCount l q j) := by
  cases h; assumption

theorem inv_term {l : List String} {q : List Char} {n : Node} (h : Inv l q n) :
    0 < cnt l q → n.links.getD 0 none = some (terminalNode l q) := by
  cases h; assumption

theorem inv_freq {l : List String} {q : List Char} {n : Node} (h : Inv l q n) :
    n.word_freq = maxCount l q := by cases h; assumption

theorem inv_best {l : List String} {q : List Char} {n : Node} (h : Inv l q n) :
    n.best_child = if maxCount l q = 0 then none else some (bestIdx l q) := by
  cases h; assumption

theorem inv_char {l : List String} {q : List Char} {n : Node} (h : Inv l q n) :
    ∀ j ch, 1 ≤ j → j < 27 → n.links.getD j none = some ch → ch.char = symChar j := by
  cases h; assumption

theorem inv_child {l : List String} {q : List Char} {n : Node} (h : Inv l q n) :
    ∀ j ch, 1 ≤ j → j < 27 → n.links.getD j none = some ch →
      Inv l (q ++ [symChar j]) ch := by
  cases h; assumption

/-- The insertion step at the node where the sentence ends: growing creates
or updates the terminal, and the repair (seed, compare against the terminal,
final fixup) restores the invariant for the extended corpus. -/
theorem insert_level_nil (l : List String) (s : String) (hl : ValidL l) (hs : ValidS s)
    (n : Node) (hInv : Inv l s.data n) :
    (grow n [] s).2 = l.count s + 1 ∧
      Inv (l ++ [s]) s.data (update_nodes (grow n [] s).1 [] (grow n [] s).2) := by
  have hlen := inv_len hInv
  have hfreq := inv_freq hInv
  have hbest := inv_best hInv
  have hb0 : branchCount l s.data 0 = cnt l s.data := by
    unfold branchCount
    rw [if_pos rfl]
  have hcnt2 : cnt (l ++ [s]) s.data = cnt l s.data + 1 := by
    rw [cnt_append, if_pos (mk_data s)]
  have hfc : cnt l s.data = l.count s := cnt_eq_count l s
  have hl2 : ValidL (l ++ [s]) := validL_append hl hs
  have hM2 : maxCount (l ++ [s]) s.data = max (maxCount l s.data) (cnt l s.data + 1) := by
    rw [maxCount_append_pre List.prefix_rfl, hfc]
  have hbri : ∀ i, 1 ≤ i → branchCount (l ++ [s]) s.data i = branchCount l s.data i := by
    intro i hi
    unfold branchCount
    rw [if_neg (by omega), if_neg (by omega)]
    exact maxCount_append_not not_prefix_snoc
  have hbr02 : branchCount (l ++ [s]) s.data 0 = cnt l s.data + 1 := by
    unfold branchCount
    rw [if_pos rfl]
    exact hcnt2
  -- the pre-insertion terminal node
  have hT : ∃ W, ((n.links.getD 0 none).getD (newNode (Char.ofNat 36)))
      = Node.mk (Char.ofNat 36) (List.replicate 27 none) W (cnt l s.data) none := by
    cases hc : n.links.getD 0 none with
    | none =>
        have h1 : ¬ 0 < branchCount l s.data 0 := by
          rw [← inv_live hInv 0 (by omega), hc]
          simp
        rw [hb0] at h1
        refine ⟨none, ?_⟩
        have hz : cnt l s.data = 0 := by omega
        rw [hz]
        rfl
    | some t0 =>
        have hclt : 0 < cnt l s.data := by
          rw [← hb0, ← inv_live hInv 0 (by omega), hc]
          rfl
        have := inv_term hInv hclt
        rw [hc] at this
        injection this with hthis
        exact ⟨some (String.mk s.data), by rw [hthis]; rfl⟩
  obtain ⟨W, hT⟩ := hT
  set T2 := terminalNode (l ++ [s]) s.data with hT2def
  have hT2f : T2.word_freq = cnt l s.data + 1 := by
    rw [hT2def]
    unfold terminalNode
    rw [word_freq_mk, hcnt2]
  have hT2c : T2.char = Char.ofNat 36 := by rw [hT2def]; rfl
  set LKS := n.links.set 0 (some T2) with hLKSdef
  have hgrow : grow n [] s
      = (Node.mk n.char LKS n.word n.word_freq n.best_child, cnt l s.data + 1) := by
    show (Node.mk n.char (n.links.set 0 (some (Node.mk
        ((n.links.getD 0 none).getD (newNode (Char.ofNat 36))).char
        ((n.links.getD 0 none).getD (newNode (Char.ofNat 36))).links (some s)
        (((n.links.getD 0 none).getD (newNode (Char.ofNat 36))).word_freq + 1)
        ((n.links.getD 0 none).getD (newNode (Char.ofNat 36))).best_child)))
        n.word n.word_freq n.best_child,
      ((n.links.getD 0 none).getD (newNode (Char.ofNat 36))).word_freq + 1) = _
    rw [hT, hLKSdef, hT2def]
    unfold terminalNode
    rw [hcnt2, mk_data]
    rfl
  refine ⟨by rw [hgrow, hfc], ?_⟩
  rw [hgrow]
  show Inv (l ++ [s]) s.data (update_nodes
    (Node.mk n.char LKS n.word n.word_freq n.best_child) [] (cnt l s.data + 1))
  have hT2len : LKS.getD 0 none = some T2 := by
    rw [hLKSdef]
    exact getD_set_self _ _ _ (by omega)
  by_cases hM : maxCount l s.data = 0
  · -- empty or brand-new node: seeded with the terminal
    have hbn : n.best_child = none := by rw [hbest, if_pos hM]
    have hA : seed (Node.mk n.char LKS n.word n.word_freq n.best_child) 0
          (cnt l s.data + 1)
        = Node.mk n.char LKS n.word (cnt l s.data + 1) (some 0) := by
      rw [seed_of_none (by rw [best_child_mk, hbn])]
      rfl
    have hAb : (Node.mk n.char LKS n.word (cnt l s.data + 1) (some 0)).best_child
        = some 0 := rfl
    have hAl : (Node.mk n.char LKS n.word (cnt l s.data + 1) (some 0)).links.getD 0 none
        = some T2 := by
      rw [links_mk]
      exact hT2len
    have hCc := compareStep_resolved (f := cnt l s.data + 1) hAb hAl hAl
    rw [if_neg (by rw [hT2f]; omega),
      if_neg (fun hcon => absurd hcon.2 (lt_irrefl _))] at hCc
    rw [update_nodes_nil, hA, hCc, fixupLast_nil]
    rw [if_neg (by rw [word_freq_mk]; omega)]
    rw [hLKSdef, hT2def]
    refine inv_nil_common l s hl hs n hInv _ _ ?_ ?_
    · rw [hM2, hM]
      omega
    · refine (bestIdx_eq hl2 (by rw [hM2]; omega) (by omega) ?_ (by omega)).symm
      rw [hbr02, hM2, hM]
      omega
  · -- the node already has a best child
    have hbn : n.best_child = some (bestIdx l s.data) := by rw [hbest, if_neg hM]
    obtain ⟨hbb, hb27, hbmin⟩ := bestIdx_spec (q := s.data) hl (by omega)
    have hA : seed (Node.mk n.char LKS n.word n.word_freq n.best_child) 0
          (cnt l s.data + 1)
        = Node.mk n.char LKS n.word n.word_freq n.best_child :=
      seed_of_some (b := bestIdx l s.data) (by rw [best_child_mk, hbn]) _ _
    rw [update_nodes_nil, hA]
    have hNb : (Node.mk n.char LKS n.word n.word_freq n.best_child).best_child
        = some (bestIdx l s.data) := by
      rw [best_child_mk, hbn]
    have hNl0 : (Node.mk n.char LKS n.word n.word_freq n.best_child).links.getD 0 none
        = some T2 := by
      rw [links_mk]
      exact hT2len
    by_cases hbz : bestIdx l s.data = 0
    · -- the best child is already the terminal: the loop sees the updated
      -- frequency and does nothing, the trailing fixup raises word_freq
      have hMc : cnt l s.data = maxCount l s.data := by
        rw [← hb0, ← hbz]
        exact hbb
      have hNbz : (Node.mk n.char LKS n.word n.word_freq n.best_child).best_child
          = some 0 := by
        rw [hNb, hbz]
      have hCc := compareStep_resolved (f := cnt l s.data + 1) hNbz hNl0 hNl0
      rw [if_neg (by rw [hT2f]; omega),
        if_neg (fun hcon => absurd hcon.2 (lt_irrefl _))] at hCc
      rw [hCc, fixupLast_nil]
      rw [if_pos (by rw [word_freq_mk, hfreq]; omega)]
      simp only [char_mk, links_mk, word_mk, word_freq_mk, best_child_mk]
      rw [hLKSdef, hT2def, hbn, hbz]
      refine inv_nil_common l s hl hs n hInv _ _ ?_ ?_
      · rw [hM2]
        omega
      · refine (bestIdx_eq hl2 (by rw [hM2]; omega) (by omega) ?_ (by omega)).symm
        rw [hbr02, hM2]
        omega
    · -- the best child is a letter child
      have hbpos : 1 ≤ bestIdx l s.data := by omega
      have hbcex : (n.links.getD (bestIdx l s.data) none).isSome := by
        rw [inv_live hInv _ hb27, hbb]
        omega
      obtain ⟨cB, hcB⟩ := Option.isSome_iff_exists.mp hbcex
      have hNlb : (Node.mk n.char LKS n.word n.word_freq n.best_child).links.getD
          (bestIdx l s.data) none = some cB := by
        rw [links_mk, hLKSdef, getD_set_ne _ _ _ _ (by omega)]
        exact hcB
      have hcBfreq : cB.word_freq = maxCount l s.data := by
        have h1 := inv_child hInv _ cB hbpos hb27 hcB
        have h2 := inv_freq h1
        rw [h2]
        have h3 : branchCount l s.data (bestIdx l s.data)
            = maxCount l (s.data ++ [symChar (bestIdx l s.data)]) := by
          unfold branchCount
          rw [if_neg (by omega)]
        rw [← h3, hbb]
      have hcBchar : cB.char = symChar (bestIdx l s.data) :=
        inv_char hInv _ cB hbpos hb27 hcB
      have hcBc2 : T2.char < cB.char := by
        rw [hcBchar, hT2c, ← symChar_zero]
        show symChar 0 < _
        exact symChar_lt (by omega) (by omega)
      have hres := compareStep_resolved (f := cnt l s.data + 1) hNb hNlb hNl0
      rcases Nat.lt_trichotomy (cnt l s.data + 1) (maxCount l s.data) with hflt | hfeq | hfgt
      · -- f below the maximum: nothing changes, fixup does nothing
        rw [if_neg (by rw [hcBfreq]; omega),
          if_neg (by rw [hcBfreq]; intro hcon; omega)] at hres
        rw [hres, fixupLast_nil]
        rw [if_neg (by rw [word_freq_mk, hfreq]; omega)]
        rw [hfreq, hbn, hLKSdef, hT2def]
        refine inv_nil_common l s hl hs n hInv _ _ ?_ ?_
        · rw [hM2]
          omega
        · refine (bestIdx_eq hl2 (by rw [hM2]; omega) hb27 ?_ ?_).symm
          · rw [hbri _ hbpos, hbb, hM2]
            omega
          · intro i hi
            rcases Nat.eq_zero_or_pos i with h0 | hipos
            · subst h0
              rw [hbr02, hM2]
              omega
            · rw [hbri _ hipos, hM2]
              have := hbmin i hi
              omega
      · -- f ties the maximum: the terminal marker wins the character tie
        rw [if_neg (by rw [hcBfreq]; omega),
          if_pos (⟨by rw [hcBfreq]; omega, hcBc2⟩ :
            cnt l s.data + 1 = cB.word_freq ∧ T2.char < cB.char)] at hres
        rw [hres, fixupLast_nil]
        rw [if_neg (by simp only [char_mk, links_mk, word_mk, word_freq_mk,
          best_child_mk]; rw [hfreq]; omega)]
        simp only [char_mk, links_mk, word_mk, word_freq_mk, best_child_mk]
        rw [hfreq, hLKSdef, hT2def]
        refine inv_nil_common l s hl hs n hInv _ _ ?_ ?_
        · rw [hM2]
          omega
        · refine (bestIdx_eq hl2 (by rw [hM2]; omega) (by omega) ?_ (by omega)).symm
          rw [hbr02, hM2]
          omega
      · -- f beats the maximum: best child moves to the terminal
        rw [if_pos (by rw [hcBfreq]; omega)] at hres
        rw [hres, fixupLast_nil]
        rw [if_neg (by simp only [word_freq_mk]; omega)]
        simp only [char_mk, links_mk, word_mk, word_freq_mk, best_child_mk]
        rw [hLKSdef, hT2def]
        refine inv_nil_common l s hl hs n hInv _ _ ?_ ?_
        · rw [hM2]
          omega
        · refine (bestIdx_eq hl2 (by rw [hM2]; omega) (by omega) ?_ (by omega)).symm
          rw [hbr02, hM2]
          omega

/-- Evaluate `modifyLink` on an explicitly given node whose slot `j` is
known to hold `P`. -/
theorem modifyLink_build (ch2 : Char) (lks : List (Option Node)) (wd : Option String)
    (fr : Nat) (bc : Option Nat) (j : Nat) (P CHX : Node) (g : Node → Node)
    (hget : lks.getD j none = some P) (hg : g P = CHX) :
    modifyLink (Node.mk ch2 lks wd fr bc) j g
      = Node.mk ch2 (lks.set j (some CHX)) wd fr bc := by
  unfold modifyLink
  rw [show (Node.mk ch2 lks wd fr bc).links.getD j none = some P from by
    rw [links_mk]; exact hget]
  simp only [char_mk, links_mk, word_mk, word_freq_mk, best_child_mk]
  rw [hg]

/-- Inserting one sentence preserves the cache invariant along the whole
inserted path, and `update_nodes` receives the sentence's new occurrence
count as its frequency argument. -/
theorem grow_update_inv (l : List String) (s : String) (hl : ValidL l) (hs : ValidS s) :
    ∀ cs q n, s.data = q ++ cs → Inv l q n →
      (grow n cs s).2 = l.count s + 1 ∧
        Inv (l ++ [s]) q (update_nodes (grow n cs s).1 cs (grow n cs s).2) := by
  intro cs
  induction cs with
  | nil =>
      intro q n hqcs hInv
      have hq : s.data = q := by simpa using hqcs
      subst hq
      exact insert_level_nil l s hl hs n hInv
  | cons c rest ih =>
      intro q n hqcs hInv
      have hlen := inv_len hInv
      have hcm : c ∈ s.data := by rw [hqcs]; simp
      have hc : LC c := hs c hcm
      obtain ⟨hc1, hc2⟩ := lc_chIdx hc
      have hsym : symChar (chIdx c) = c := symChar_chIdx hc
      have hl2 : ValidL (l ++ [s]) := validL_append hl hs
      have hqpre : q <+: s.data := ⟨c :: rest, hqcs.symm⟩
      have hq1pre : (q ++ [c]) <+: s.data := ⟨rest, by rw [hqcs]; simp⟩
      -- the pre-insertion child in the slot of c
      have hch0 : ∃ ch0, ((n.links.getD (chIdx c) none).getD (newNode c)) = ch0 ∧
          Inv l (q ++ [c]) ch0 ∧ ch0.char = c ∧
          (ch0.best_child = none ↔ maxCount l (q ++ [c]) = 0) ∧
          ch0.word_freq = maxCount l (q ++ [c]) := by
        have hbrj0 : branchCount l q (chIdx c) = maxCount l (q ++ [c]) := by
          unfold branchCount
          rw [if_neg (by omega), hsym]
        cases hcg : n.links.getD (chIdx c) none with
        | none =>
            have h0 : ¬ 0 < branchCount l q (chIdx c) := by
              rw [← inv_live hInv (chIdx c) (by omega), hcg]
              simp
            have hMc0 : maxCount l (q ++ [c]) = 0 := by omega
            refine ⟨newNode c, rfl, inv_fresh l _ c hMc0, rfl, ?_, ?_⟩
            · simp [newNode, hMc0]
            · simp [newNode, hMc0]
        | some ch0x =>
            have hMcpos : 0 < maxCount l (q ++ [c]) := by
              rw [← hbrj0, ← inv_live hInv (chIdx c) (by omega), hcg]
              rfl
            have hInvc := inv_child hInv (chIdx c) ch0x (by omega) (by omega) hcg
            rw [hsym] at hInvc
            have hcharx := inv_char hInv (chIdx c) ch0x (by omega) (by omega) hcg
            rw [hsym] at hcharx
            refine ⟨ch0x, rfl, hInvc, hcharx, ?_, ?_⟩
            · rw [inv_best hInvc, if_neg (by omega)]
              constructor
              · intro h
                exact Option.noConfusion h
              · intro h
                omega
            · rw [inv_freq hInvc]
      obtain ⟨ch0, hch0e, hch0Inv, hch0c, hch0b, hch0f⟩ := hch0
      have hIH := ih (q ++ [c]) ch0 (by rw [hqcs]; simp) hch0Inv
      obtain ⟨g1, f, hgpair⟩ : ∃ a b, grow ch0 rest s = (a, b) := ⟨_, _, rfl⟩
      rw [hgpair] at hIH
      obtain ⟨hf, hCH⟩ := hIH
      have hg1 : (grow ch0 rest s).1 = g1 := by rw [hgpair]
      have hg1c : g1.char = c := by rw [← hg1, grow_char, hch0c]
      have hg1b : g1.best_child = ch0.best_child := by rw [← hg1, grow_best_child]
      have hg1f : g1.word_freq = ch0.word_freq := by rw [← hg1, grow_word_freq]
      have hgrow : grow n (c :: rest) s = (Node.mk n.char
          (n.links.set (chIdx c) (some g1)) n.word n.word_freq n.best_child, f) := by
        show (Node.mk n.char (n.links.set (chIdx c)
            (some (grow ((n.links.getD (chIdx c) none).getD (newNode c)) rest s).1))
            n.word n.word_freq n.best_child,
          (grow ((n.links.getD (chIdx c) none).getD (newNode c)) rest s).2) = _
        rw [hch0e, hgpair]
      refine ⟨by rw [hgrow]; exact hf, ?_⟩
      rw [hgrow]
      show Inv (l ++ [s]) q (update_nodes (Node.mk n.char
        (n.links.set (chIdx c) (some g1)) n.word n.word_freq n.best_child) (c :: rest) f)
      rw [update_nodes_cons]
      -- shared numeric facts about the extended corpus
      have hfpos : 1 ≤ f := by omega
      have hM2 : maxCount (l ++ [s]) q = max (maxCount l q) f := by
        rw [maxCount_append_pre hqpre, ← hf]
      have hMc2 : maxCount (l ++ [s]) (q ++ [c]) = max (maxCount l (q ++ [c])) f := by
        rw [maxCount_append_pre hq1pre, ← hf]
      have hbrj1 : branchCount l q (chIdx c) = maxCount l (q ++ [c]) := by
        unfold branchCount
        rw [if_neg (by omega), hsym]
      have hbrj2 : branchCount (l ++ [s]) q (chIdx c) = maxCount (l ++ [s]) (q ++ [c]) := by
        unfold branchCount
        rw [if_neg (by omega), hsym]
      have hMcle : maxCount l (q ++ [c]) ≤ maxCount l q := by
        rw [← hbrj1]
        exact branchCount_le l q (chIdx c)
      have hbri2 : ∀ i, i < 27 → i ≠ chIdx c →
          branchCount (l ++ [s]) q i = branchCount l q i := by
        intro i hi27 hi
        by_cases hi0 : i = 0
        · subst hi0
          unfold branchCount
          rw [if_pos rfl, if_pos rfl]
          have hne : String.mk q ≠ s := by
            intro hqe
            have hq2 : s.data = q := by rw [← hqe]
            rw [hq2] at hqcs
            have := congrArg List.length hqcs
            simp at this
          rw [cnt_append, if_neg hne]
          omega
        · unfold branchCount
          rw [if_neg hi0, if_neg hi0]
          apply maxCount_append_not
          intro hpre
          rw [hqcs] at hpre
          have h2 : symChar i = c := prefix_snoc_iff.mp hpre
          apply hi
          rw [← hsym] at h2
          exact symChar_inj (by omega) (by omega) h2
      have hCHchar : (update_nodes g1 rest f).char = c := by
        rw [update_nodes_char, hg1c]
      have hP1c : (pass1 g1 rest f).char = c := by rw [pass1_char, hg1c]
      have hP1f : (pass1 g1 rest f).word_freq
          = if ch0.best_child = none then f else ch0.word_freq := by
        rw [pass1_word_freq, hg1b, hg1f]
      have hN1j : (n.links.set (chIdx c) (some g1)).getD (chIdx c) none = some g1 :=
        getD_set_self _ _ _ (by omega)
      by_cases hbq : maxCount l q = 0
      · -- the node had no best child yet: the seed installs the path slot,
        -- the comparison against the freshly seeded child changes nothing
        have hbn : n.best_child = none := by rw [inv_best hInv, if_pos hbq]
        have hMc0 : maxCount l (q ++ [c]) = 0 := by omega
        have hch0bn : ch0.best_child = none := hch0b.mpr hMc0
        have hP1fx : (pass1 g1 rest f).word_freq = f := by
          rw [hP1f, if_pos hch0bn]
        have hA : seed (Node.mk n.char (n.links.set (chIdx c) (some g1)) n.word
              n.word_freq n.best_child) (chIdx c) f
            = Node.mk n.char (n.links.set (chIdx c) (some g1)) n.word f
              (some (chIdx c)) := by
          rw [seed_of_none (by rw [best_child_mk, hbn])]
          rfl
        have hB := modifyLink_build n.char (n.links.set (chIdx c) (some g1)) n.word f
          (some (chIdx c)) (chIdx c) g1 (pass1 g1 rest f) (fun ch => pass1 ch rest f)
          hN1j rfl
        rw [List.set_set] at hB
        have hBj : (n.links.set (chIdx c) (some (pass1 g1 rest f))).getD (chIdx c) none
            = some (pass1 g1 rest f) :=
          getD_set_self _ _ _ (by omega)
        have hBb : (Node.mk n.char (n.links.set (chIdx c) (some (pass1 g1 rest f)))
            n.word f (some (chIdx c))).best_child = some (chIdx c) := rfl
        have hBj2 : (Node.mk n.char (n.links.set (chIdx c) (some (pass1 g1 rest f)))
            n.word f (some (chIdx c))).links.getD (chIdx c) none
            = some (pass1 g1 rest f) := by
          rw [links_mk]
          exact hBj
        have hres := compareStep_resolved (f := f) hBb hBj2 hBj2
        rw [if_neg (by rw [hP1fx]; omega),
          if_neg (fun hcon => absurd hcon.2 (lt_irrefl _))] at hres
        have hE := modifyLink_build n.char
          (n.links.set (chIdx c) (some (pass1 g1 rest f))) n.word f (some (chIdx c))
          (chIdx c) (pass1 g1 rest f) (update_nodes g1 rest f)
          (fun ch => fixupLast (pass2 ch rest f) rest f) hBj rfl
        rw [List.set_set] at hE
        rw [hA, hB, hres, hE]
        refine inv_cons_common l s hl hs q c rest hqcs hc n hInv _ hCH hCHchar _ _ ?_ ?_
        · rw [hM2, hbq]
          omega
        · refine (bestIdx_eq hl2 (by rw [hM2]; omega) (by omega) ?_ ?_).symm
          · rw [hbrj2, hMc2, hMc0, hM2, hbq]
          · intro i hi
            rw [hbri2 i (by omega) (by omega), hM2, hbq]
            have := branchCount_le l q i
            omega
      · -- the node already has a best child
        have hbn : n.best_child = some (bestIdx l q) := by rw [inv_best hInv, if_neg hbq]
        obtain ⟨hbb, hb27, hbmin⟩ := bestIdx_spec (q := q) hl (by omega)
        have hA : seed (Node.mk n.char (n.links.set (chIdx c) (some g1)) n.word
              n.word_freq n.best_child) (chIdx c) f
            = Node.mk n.char (n.links.set (chIdx c) (some g1)) n.word
              n.word_freq n.best_child :=
          seed_of_some (b := bestIdx l q) (by rw [best_child_mk, hbn]) _ _
        have hB := modifyLink_build n.char (n.links.set (chIdx c) (some g1)) n.word
          n.word_freq n.best_child (chIdx c) g1 (pass1 g1 rest f)
          (fun ch => pass1 ch rest f) hN1j rfl
        rw [List.set_set] at hB
        have hBj : (n.links.set (chIdx c) (some (pass1 g1 rest f))).getD (chIdx c) none
            = some (pass1 g1 rest f) :=
          getD_set_self _ _ _ (by omega)
        have hBb : (Node.mk n.char (n.links.set (chIdx c) (some (pass1 g1 rest f)))
            n.word n.word_freq n.best_child).best_child = some (bestIdx l q) := by
          rw [best_child_mk, hbn]
        have hBj2 : (Node.mk n.char (n.links.set (chIdx c) (some (pass1 g1 rest f)))
            n.word n.word_freq n.best_child).links.getD (chIdx c) none
            = some (pass1 g1 rest f) := by
          rw [links_mk]
          exact hBj
        have hE := modifyLink_build n.char
          (n.links.set (chIdx c) (some (pass1 g1 rest f))) n.word n.word_freq
          n.best_child (chIdx c) (pass1 g1 rest f) (update_nodes g1 rest f)
          (fun ch => fixupLast (pass2 ch rest f) rest f) hBj rfl
        rw [List.set_set] at hE
        by_cases hbj : bestIdx l q = chIdx c
        · -- the previous best child sits on the inserted path
          have hMceq : maxCount l (q ++ [c]) = maxCount l q := by
            rw [← hbrj1, ← hbj]
            exact hbb
          have hnm : ¬ ch0.best_child = none := by
            rw [hch0b]
            omega
          have hP1fx : (pass1 g1 rest f).word_freq = maxCount l q := by
            rw [hP1f, if_neg hnm, hch0f, hMceq]
          have hBb2 : (Node.mk n.char (n.links.set (chIdx c) (some (pass1 g1 rest f)))
              n.word n.word_freq n.best_child).best_child = some (chIdx c) := by
            rw [hBb, hbj]
          have hres := compareStep_resolved (f := f) hBb2 hBj2 hBj2
          by_cases hfM : f > maxCount l q
          · rw [if_pos (by rw [hP1fx]; omega)] at hres
            simp only [char_mk, links_mk, word_mk] at hres
            have hE2 := modifyLink_build n.char
              (n.links.set (chIdx c) (some (pass1 g1 rest f))) n.word f
              (some (chIdx c)) (chIdx c) (pass1 g1 rest f) (update_nodes g1 rest f)
              (fun ch => fixupLast (pass2 ch rest f) rest f) hBj rfl
            rw [List.set_set] at hE2
            rw [hA, hB, hres, hE2]
            refine inv_cons_common l s hl hs q c rest hqcs hc n hInv _ hCH hCHchar _ _ ?_ ?_
            · rw [hM2]
              omega
            · refine (bestIdx_eq hl2 (by rw [hM2]; omega) (by omega) ?_ ?_).symm
              · rw [hbrj2, hMc2, hM2]
                omega
              · intro i hi
                rw [hbri2 i (by omega) (by omega), hM2]
                have := branchCount_le l q i
                omega
          · rw [if_neg (by rw [hP1fx]; omega),
              if_neg (fun hcon => absurd hcon.2 (lt_irrefl _))] at hres
            rw [hA, hB, hres, hE]
            have hshape : (Node.mk n.char
                  (n.links.set (chIdx c) (some (update_nodes g1 rest f))) n.word
                  n.word_freq n.best_child)
                = Node.mk n.char
                  (n.links.set (chIdx c) (some (update_nodes g1 rest f))) n.word
                  (maxCount l q) (some (chIdx c)) := by
              rw [inv_freq hInv, hbn, hbj]
            rw [hshape]
            refine inv_cons_common l s hl hs q c rest hqcs hc n hInv _ hCH hCHchar _ _ ?_ ?_
            · rw [hM2]
              omega
            · refine (bestIdx_eq hl2 (by rw [hM2]; omega) (by omega) ?_ ?_).symm
              · rw [hbrj2, hMc2, hMceq, hM2]
              · intro i hi
                rw [hbri2 i (by omega) (by omega), hM2]
                have h3 := hbmin i (by omega)
                omega
        · -- the previous best child is in another slot
          have hcB : ∃ cB, n.links.getD (bestIdx l q) none = some cB ∧
              cB.word_freq = maxCount l q ∧ cB.char = symChar (bestIdx l q) := by
            by_cases hb0 : bestIdx l q = 0
            · have hcq : cnt l q = maxCount l q := by
                have h3 : branchCount l q 0 = cnt l q := by
                  unfold branchCount
                  rw [if_pos rfl]
                rw [← h3, ← hb0]
                exact hbb
              have ht := inv_term hInv (by omega)
              refine ⟨terminalNode l q, by rw [hb0]; exact ht, ?_, ?_⟩
              · show cnt l q = _
                exact hcq
              · rw [hb0]
                rfl
            · have hbcex : (n.links.getD (bestIdx l q) none).isSome := by
                rw [inv_live hInv _ hb27, hbb]
                omega
              obtain ⟨cB, hcBe⟩ := Option.isSome_iff_exists.mp hbcex
              refine ⟨cB, hcBe, ?_, inv_char hInv _ cB (by omega) hb27 hcBe⟩
              have h4 := inv_freq (inv_child hInv _ cB (by omega) hb27 hcBe)
              rw [h4]
              have h5 : branchCount l q (bestIdx l q)
                  = maxCount l (q ++ [symChar (bestIdx l q)]) := by
                unfold branchCount
                rw [if_neg (by omega)]
              rw [← h5, hbb]
          obtain ⟨cB, hcBe, hcBf, hcBc⟩ := hcB
          have hBbget : (Node.mk n.char (n.links.set (chIdx c) (some (pass1 g1 rest f)))
              n.word n.word_freq n.best_child).links.getD (bestIdx l q) none
              = some cB := by
            rw [links_mk, getD_set_ne _ _ _ _ hbj]
            exact hcBe
          have hres := compareStep_resolved (f := f) hBb hBbget hBj2
          rcases Nat.lt_trichotomy f (maxCount l q) with hflt | hfeq | hfgt
          · -- f below the maximum: no cache movement at this node
            rw [if_neg (by rw [hcBf]; omega),
              if_neg (fun hcon => by rw [hcBf] at hcon; omega)] at hres
            rw [hA, hB, hres, hE]
            have hshape : (Node.mk n.char
                  (n.links.set (chIdx c) (some (update_nodes g1 rest f))) n.word
                  n.word_freq n.best_child)
                = Node.mk n.char
                  (n.links.set (chIdx c) (some (update_nodes g1 rest f))) n.word
                  (maxCount l q) (some (bestIdx l q)) := by
              rw [inv_freq hInv, hbn]
            rw [hshape]
            refine inv_cons_common l s hl hs q c rest hqcs hc n hInv _ hCH hCHchar _ _ ?_ ?_
            · rw [hM2]
              omega
            · refine (bestIdx_eq hl2 (by rw [hM2]; omega) hb27 ?_ ?_).symm
              · rw [hbri2 _ hb27 hbj, hbb, hM2]
                omega
              · intro i hi
                by_cases hij : i = chIdx c
                · subst hij
                  rw [hbrj2, hMc2, hM2]
                  have h6 := hbmin (chIdx c) hi
                  rw [hbrj1] at h6
                  omega
                · rw [hbri2 i (by omega) hij, hM2]
                  have h6 := hbmin i hi
                  omega
          · -- f ties the maximum: the character tie-break decides
            by_cases hjb : chIdx c < bestIdx l q
            · rw [if_neg (by rw [hcBf]; omega),
                if_pos (⟨by rw [hcBf]; omega, by
                  rw [hP1c, hcBc, ← hsym]
                  exact symChar_lt hjb (by omega)⟩ :
                  f = cB.word_freq ∧ (pass1 g1 rest f).char < cB.char)] at hres
              simp only [char_mk, links_mk, word_mk, word_freq_mk] at hres
              have hE2 := modifyLink_build n.char
                (n.links.set (chIdx c) (some (pass1 g1 rest f))) n.word n.word_freq
                (some (chIdx c)) (chIdx c) (pass1 g1 rest f) (update_nodes g1 rest f)
                (fun ch => fixupLast (pass2 ch rest f) rest f) hBj rfl
              rw [List.set_set] at hE2
              rw [hA, hB, hres, hE2]
              have hshape : (Node.mk n.char
                    (n.links.set (chIdx c) (some (update_nodes g1 rest f))) n.word
                    n.word_freq (some (chIdx c)))
                  = Node.mk n.char
                    (n.links.set (chIdx c) (some (update_nodes g1 rest f))) n.word
                    (maxCount l q) (some (chIdx c)) := by
                rw [inv_freq hInv]
              rw [hshape]
              refine inv_cons_common l s hl hs q c rest hqcs hc n hInv _ hCH hCHchar _ _ ?_ ?_
              · rw [hM2]
                omega
              · refine (bestIdx_eq hl2 (by rw [hM2]; omega) (by omega) ?_ ?_).symm
                · rw [hbrj2, hMc2, hM2]
                  omega
                · intro i hi
                  rw [hbri2 i (by omega) (by omega), hM2]
                  have h6 := hbmin i (by omega)
                  omega
            · -- the other slot keeps the tie
              have hbjlt : bestIdx l q < chIdx c := by omega
              rw [if_neg (by rw [hcBf]; omega),
                if_neg (fun hcon => by
                  have h7 := hcon.2
                  rw [hP1c, hcBc, ← hsym] at h7
                  have h8 := symChar_lt hbjlt (by omega)
                  rw [char_lt_iff_toNat] at h7 h8
                  omega)] at hres
              rw [hA, hB, hres, hE]
              have hshape : (Node.mk n.char
                    (n.links.set (chIdx c) (some (update_nodes g1 rest f))) n.word
                    n.word_freq n.best_child)
                  = Node.mk n.char
                    (n.links.set (chIdx c) (some (update_nodes g1 rest f))) n.word
                    (maxCount l q) (some (bestIdx l q)) := by
                rw [inv_freq hInv, hbn]
              rw [hshape]
              refine inv_cons_common l s hl hs q c rest hqcs hc n hInv _ hCH hCHchar _ _ ?_ ?_
              · rw [hM2]
                omega
              · refine (bestIdx_eq hl2 (by rw [hM2]; omega) hb27 ?_ ?_).symm
                · rw [hbri2 _ hb27 hbj, hbb, hM2]
                  omega
                · intro i hi
                  have hij : i ≠ chIdx c := by omega
                  rw [hbri2 i (by omega) hij, hM2]
                  have h6 := hbmin i hi
                  omega
          · -- f beats the maximum: best child moves to the inserted path
            rw [if_pos (by rw [hcBf]; omega)] at hres
            simp only [char_mk, links_mk, word_mk] at hres
            have hE2 := modifyLink_build n.char
              (n.links.set (chIdx c) (some (pass1 g1 rest f))) n.word f
              (some (chIdx c)) (chIdx c) (pass1 g1 rest f) (update_nodes g1 rest f)
              (fun ch => fixupLast (pass2 ch rest f) rest f) hBj rfl
            rw [List.set_set] at hE2
            rw [hA, hB, hres, hE2]
            refine inv_cons_common l s hl hs q c rest hqcs hc n hInv _ hCH hCHchar _ _ ?_ ?_
            · rw [hM2]
              omega
            · refine (bestIdx_eq hl2 (by rw [hM2]; omega) (by omega) ?_ ?_).symm
              · rw [hbrj2, hMc2, hM2]
                omega
              · intro i hi
                rw [hbri2 i (by omega) (by omega), hM2]
                have := branchCount_le l q i
                omega

/-! ### The invariant for built tries -/

theorem insert_inv {l : List String} {s : String} (hl : ValidL l) (hs : ValidS s)
    {n : Node} (hInv : Inv l [] n) : Inv (l ++ [s]) [] (insert_iterative n s) :=
  (grow_update_inv l s hl hs s.data [] n (by simp) hInv).2

theorem inv_rootNode : Inv [] [] rootNode := by
  have hz : ∀ q : List Char, maxCount [] q = 0 := fun q => rfl
  refine Inv.intro [] rootNode (by simp [rootNode]) rfl ?_ ?_ (hz []).symm ?_ ?_ ?_
  · intro j hj
    show ((List.replicate 27 none).getD j none).isSome ↔ _
    rw [getD_replicate]
    have := branchCount_le [] [] j
    have h0 := hz []
    simp
    omega
  · intro hc
    have := cnt_le_maxCount [] []
    have h0 := hz []
    exact absurd hc (by omega)
  · rw [hz []]
    rfl
  · intro j ch h1 h2 h3
    rw [show rootNode.links = List.replicate 27 none from rfl, getD_replicate] at h3
    exact Option.noConfusion h3
  · intro j ch h1 h2 h3
    rw [show rootNode.links = List.replicate 27 none from rfl, getD_replicate] at h3
    exact Option.noConfusion h3

theorem buildTrie_inv (l : List String) (hl : ValidL l) : Inv l [] (buildTrie l) := by
  suffices h : ∀ l2 l1 (n : Node), ValidL l1 → ValidL l2 → Inv l1 [] n →
      Inv (l1 ++ l2) [] (l2.foldl insert_iterative n) by
    have := h l [] rootNode (by intro s hs; cases hs) hl inv_rootNode
    simpa using this
  intro l2
  induction l2 with
  | nil =>
      intro l1 n _ _ hInv
      simpa using hInv
  | cons s tl ih =>
      intro l1 n h1 h2 hInv
      have hs : ValidS s := h2 s (by simp)
      have htl : ValidL tl := fun x hx => h2 x (by simp [hx])
      have h3 := insert_inv h1 hs hInv
      have h4 := ih (l1 ++ [s]) _ (validL_append h1 hs) htl h3
      rw [List.foldl_cons]
      rw [List.append_assoc] at h4
      simpa using h4

/-! ### Query resolution -/

theorem pyGet_lc {c : Char} (hc : LC c) {lks : List (Option Node)}
    (hlen : lks.length = 27) :
    pyGet lks (charIndex c) = some (lks.getD (chIdx c) none) := by
  unfold pyGet charIndex
  obtain ⟨h1, h2⟩ := hc
  rw [if_pos ?_]
  · have he : (((c.toNat : Int) - 97 + 1)).toNat = chIdx c := by
      unfold chIdx
      omega
    rw [he]
  · rw [hlen]
    constructor <;> omega

theorem nodeAt_cons (n : Node) (j : Nat) (js : List Nat) :
    nodeAt n (j :: js) = (match n.links.getD j none with
      | none => none
      | some ch => nodeAt ch js) := rfl

theorem walkPrompt_eq (l : List String) :
    ∀ d q (n : Node), Inv l q n → (∀ c ∈ d, LC c) →
      walkPrompt n d = (match nodeAt n (d.map chIdx) with
        | some m => followLoop m
        | none => Except.ok none) := by
  intro d
  induction d with
  | nil => intro q n _ _; rfl
  | cons c tl ih =>
      intro q n hInv hlc
      have hc : LC c := hlc c (by simp)
      obtain ⟨hc1, hc2⟩ := lc_chIdx hc
      have he : walkPrompt n (c :: tl) = (match pyGet n.links (charIndex c) with
        | none => Except.error "IndexError"
        | some none => Except.ok none
        | some (some ch) => walkPrompt ch tl) := rfl
      rw [he, pyGet_lc hc (inv_len hInv)]
      cases hg : n.links.getD (chIdx c) none with
      | none =>
          have hn : nodeAt n ((c :: tl).map chIdx) = none := by
            rw [List.map_cons, nodeAt_cons, hg]
          rw [hn]
      | some ch =>
          have hInvc := inv_child hInv (chIdx c) ch (by omega) (by omega) hg
          have hn : nodeAt n ((c :: tl).map chIdx) = nodeAt ch (tl.map chIdx) := by
            rw [List.map_cons, nodeAt_cons, hg]
          rw [hn]
          exact ih _ ch hInvc (fun x hx => hlc x (by simp [hx]))

theorem nodeAt_live (l : List String) :
    ∀ d q (n : Node), Inv l q n → (∀ c ∈ d, LC c) →
      (∃ s2 ∈ l, (q ++ d) <+: s2.data) →
      ∃ m, nodeAt n (d.map chIdx) = some m ∧ Inv l (q ++ d) m := by
  intro d
  induction d with
  | nil =>
      intro q n hInv _ _
      exact ⟨n, rfl, by simpa using hInv⟩
  | cons c tl ih =>
      intro q n hInv hlc hex
      have hc : LC c := hlc c (by simp)
      obtain ⟨hc1, hc2⟩ := lc_chIdx hc
      have hsym := symChar_chIdx hc
      obtain ⟨s2, hs2, hp2⟩ := hex
      have hq1 : (q ++ [c]) <+: s2.data := by
        apply List.IsPrefix.trans _ hp2
        refine ⟨tl, ?_⟩
        simp
      have hpos : 0 < branchCount l q (chIdx c) := by
        have hbr : branchCount l q (chIdx c) = maxCount l (q ++ [c]) := by
          unfold branchCount
          rw [if_neg (by omega), hsym]
        rw [hbr]
        exact maxCount_pos ⟨s2, hs2, hq1⟩
      have hsome : (n.links.getD (chIdx c) none).isSome := by
        rw [inv_live hInv (chIdx c) (by omega)]
        exact hpos
      obtain ⟨ch, hch⟩ := Option.isSome_iff_exists.mp hsome
      have hInvc := inv_child hInv (chIdx c) ch (by omega) (by omega) hch
      rw [hsym] at hInvc
      obtain ⟨m, hm1, hm2⟩ := ih (q ++ [c]) ch hInvc (fun x hx => hlc x (by simp [hx]))
        ⟨s2, hs2, by simpa using hp2⟩
      refine ⟨m, ?_, by simpa using hm2⟩
      rw [List.map_cons, nodeAt_cons, hch]
      exact hm1

theorem chaseNode_eq (n : Node) : chaseNode n = (match n.best_child with
    | none => none
    | some j =>
        match n.links.getD j none with
        | none => none
        | some ch => if ch.char = '$' then some ch else chaseNode ch) := by
  rw [chaseNode]
  split
  · rfl
  · split
    · split
      · rfl
      · simp_all
    · split
      · simp_all
      · simp_all

theorem followLoop_eq (n : Node) : followLoop n = (match n.best_child with
    | none => Except.error "AttributeError"
    | some j =>
        match n.links.getD j none with
        | none => Except.error "AttributeError"
        | some ch => if ch.char = '$' then Except.ok ch.word else followLoop ch) := by
  rw [followLoop]
  split
  · rfl
  · split
    · split
      · rfl
      · simp_all
    · split
      · simp_all
      · simp_all

theorem followLoop_eq_chase : ∀ k (n : Node), sizeOf n ≤ k →
    followLoop n = (match chaseNode n with
      | some T => Except.ok T.word
      | none => Except.error "AttributeError") := by
  intro k
  induction k with
  | zero =>
      intro n hsz
      have := sizeOf_node_pos n
      omega
  | succ m ih =>
      intro n hsz
      rw [followLoop_eq, chaseNode_eq]
      cases hb : n.best_child with
      | none => rfl
      | some j =>
          dsimp only
          cases hg : n.links.getD j none with
          | none => rfl
          | some ch =>
              dsimp only
              by_cases hch : ch.char = '$'
              · rw [if_pos hch, if_pos hch]
              · rw [if_neg hch, if_neg hch]
                exact ih ch (by have := sizeOf_getD_lt n j ch hg; omega)

/-- Following the cached best-child chain from an invariant-satisfying node
reaches a terminal whose stored sentence is the best completion: maximal
occurrence count, lexicographically least among the tied completions. -/
theorem chase_correct (l : List String) (hl : ValidL l) :
    ∀ k (n : Node) q, sizeOf n ≤ k → Inv l q n → 0 < maxCount l q →
      ∃ T w, chaseNode n = some T ∧ T.char = '$' ∧ T.word = some w ∧
        w ∈ l ∧ q <+: w.data ∧ l.count w = maxCount l q ∧ T.word_freq = l.count w ∧
        (∀ s2 ∈ l, q <+: s2.data → l.count s2 = l.count w →
          w = s2 ∨ lexLt w.data s2.data) := by
  intro k
  induction k with
  | zero =>
      intro n q hsz
      have := sizeOf_node_pos n
      omega
  | succ m ih =>
      intro n q hsz hInv hpos
      obtain ⟨hbb, hb27, hbmin⟩ := bestIdx_spec (q := q) hl hpos
      have hbn : n.best_child = some (bestIdx l q) := by
        rw [inv_best hInv, if_neg (by omega)]
      have hb0s : branchCount l q 0 = cnt l q := by
        unfold branchCount
        rw [if_pos rfl]
      by_cases hb0 : bestIdx l q = 0
      · -- the terminal itself is the best completion
        have hcq : cnt l q = maxCount l q := by
          have h1 := hbb
          rw [hb0, hb0s] at h1
          exact h1
        have hterm2 := inv_term hInv (by omega)
        have hch : chaseNode n = some (terminalNode l q) := by
          rw [chaseNode_eq, hbn, hb0]
          dsimp only
          rw [hterm2]
          dsimp only
          rw [if_pos (show (terminalNode l q).char = '$' from rfl)]
        refine ⟨terminalNode l q, String.mk q, hch, rfl, rfl, ?_, by simp, hcq, rfl, ?_⟩
        · rw [← List.count_pos_iff]
          show 0 < cnt l q
          omega
        · intro s2 hs2 hp2 hc2
          by_cases he : String.mk q = s2
          · left; exact he
          · right
            show lexLt q s2.data
            exact lexLt_of_pre_ne hp2 (fun hq => he (by rw [hq, mk_data]))
      · -- the best completion goes through a letter child
        have hbpos : 1 ≤ bestIdx l q := by omega
        have hsome : (n.links.getD (bestIdx l q) none).isSome := by
          rw [inv_live hInv _ hb27, hbb]
          omega
        obtain ⟨cB, hcB⟩ := Option.isSome_iff_exists.mp hsome
        have hInvc := inv_child hInv _ cB hbpos hb27 hcB
        have hcBchar : cB.char = symChar (bestIdx l q) := inv_char hInv _ cB hbpos hb27 hcB
        have hMc : maxCount l (q ++ [symChar (bestIdx l q)]) = maxCount l q := by
          have h5 : branchCount l q (bestIdx l q)
              = maxCount l (q ++ [symChar (bestIdx l q)]) := by
            unfold branchCount
            rw [if_neg (by omega)]
          rw [← h5, hbb]
        have hch : chaseNode n = chaseNode cB := by
          rw [chaseNode_eq, hbn]
          dsimp only
          rw [hcB]
          dsimp only
          rw [if_neg (by rw [hcBchar]; exact symChar_ne_dollar hbpos (by omega))]
        obtain ⟨T, w, hT1, hT2, hT3, hT4, hT5, hT6, hT7, hT8⟩ :=
          ih cB (q ++ [symChar (bestIdx l q)])
            (by have := sizeOf_getD_lt n _ cB hcB; omega) hInvc (by rw [hMc]; omega)
        refine ⟨T, w, by rw [hch]; exact hT1, hT2, hT3, hT4, ?_, ?_, hT7, ?_⟩
        · exact List.IsPrefix.trans (List.prefix_append q _) hT5
        · rw [hT6, hMc]
        · intro s2 hs2 hp2 hc2
          rcases hp2 with ⟨u, hu⟩
          cases u with
          | nil =>
              exfalso
              have hs2q : String.mk q = s2 := str_data_inj (by rw [← hu]; simp)
              have h6 : cnt l q = l.count w := by
                unfold cnt
                rw [hs2q]
                exact hc2
              have h7 := hbmin 0 (by omega)
              rw [hb0s] at h7
              apply h7
              rw [h6, hT6, hMc]
          | cons d u2 =>
              have hd : LC d := hl s2 hs2 d (by rw [← hu]; simp)
              obtain ⟨hd1, hd2⟩ := lc_chIdx hd
              have hdsym := symChar_chIdx hd
              have hq1d : (q ++ [d]) <+: s2.data := ⟨u2, by rw [← hu]; simp⟩
              have hbrd : l.count s2 ≤ branchCount l q (chIdx d) := by
                unfold branchCount
                rw [if_neg (by omega), hdsym]
                exact le_maxCount hs2 hq1d
              have hble : branchCount l q (chIdx d) ≤ maxCount l q :=
                branchCount_le _ _ _
              have hbrdM : branchCount l q (chIdx d) = maxCount l q := by
                have h8 : l.count s2 = maxCount l q := by rw [hc2, hT6, hMc]
                omega
              by_cases hde : bestIdx l q = chIdx d
              · have hsymd : symChar (bestIdx l q) = d := by rw [hde, hdsym]
                apply hT8 s2 hs2 _ hc2
                rw [hsymd]
                exact hq1d
              · right
                have hnotlt : ¬ chIdx d < bestIdx l q := fun hlt => hbmin _ hlt hbrdM
                have hblt : bestIdx l q < chIdx d := by omega
                obtain ⟨u3, hu3⟩ := hT5
                rw [← hu, ← hu3]
                show lexLt ((q ++ [symChar (bestIdx l q)]) ++ u3) (q ++ d :: u2)
                rw [List.append_assoc]
                show lexLt (q ++ (symChar (bestIdx l q) :: u3)) (q ++ d :: u2)
                apply lexLt_heads
                rw [← hdsym]
                exact symChar_lt hblt (by omega)

/-! ### The final state is determined by the occurrence counts -/

theorem getElem?_eq_some_getD (lks : List (Option Node)) (i : Nat) (h : i < lks.length) :
    lks[i]? = some (lks.getD i none) := by
  rw [List.getD_eq_getElem?_getD, List.getElem?_eq_getElem h]
  rfl

theorem inv_unique : ∀ k (n m2 : Node) q (l l2 : List String), sizeOf n ≤ k →
    Inv l q n → Inv l2 q m2 → (∀ x, l.count x = l2.count x) → n.char = m2.char →
    n = m2 := by
  intro k
  induction k with
  | zero =>
      intro n _ _ _ _ hsz
      have := sizeOf_node_pos n
      omega
  | succ kk ih =>
      intro n m2 q l l2 hsz h1 h2 hcnt hch
      have hmax : maxCount l q = maxCount l2 q := maxCount_congr hcnt
      have hcq : cnt l q = cnt l2 q := by unfold cnt; exact hcnt _
      have hbr := branchCount_congr (q := q) hcnt
      have hbi : bestIdx l q = bestIdx l2 q := bestIdx_congr hcnt
      have hlen1 := inv_len h1
      have hlen2 := inv_len h2
      have hbr0 : ∀ l3 : List String, branchCount l3 q 0 = cnt l3 q := by
        intro l3
        unfold branchCount
        rw [if_pos rfl]
      have hgetD : ∀ i, i < 27 → n.links.getD i none = m2.links.getD i none := by
        intro i hi
        rcases Nat.eq_zero_or_pos i with h0 | hipos
        · subst h0
          by_cases hc0 : 0 < cnt l q
          · rw [inv_term h1 hc0, inv_term h2 (by omega)]
            exact congrArg some (terminalNode_congr hcq)
          · have e1 : ¬ (n.links.getD 0 none).isSome := by
              rw [inv_live h1 0 (by omega), hbr0 l]
              omega
            have e2 : ¬ (m2.links.getD 0 none).isSome := by
              rw [inv_live h2 0 (by omega), hbr0 l2]
              omega
            rw [Option.not_isSome_iff_eq_none.mp e1, Option.not_isSome_iff_eq_none.mp e2]
        · by_cases hpos : 0 < branchCount l q i
          · have s1 : (n.links.getD i none).isSome := by
              rw [inv_live h1 i hi]
              exact hpos
            have s2 : (m2.links.getD i none).isSome := by
              rw [inv_live h2 i hi, ← hbr]
              exact hpos
            obtain ⟨c1, hc1⟩ := Option.isSome_iff_exists.mp s1
            obtain ⟨c2, hc2⟩ := Option.isSome_iff_exists.mp s2
            rw [hc1, hc2]
            apply congrArg some
            apply ih c1 c2 (q ++ [symChar i]) l l2
              (by have := sizeOf_getD_lt n i c1 hc1; omega)
              (inv_child h1 i c1 hipos hi hc1) (inv_child h2 i c2 hipos hi hc2) hcnt
            rw [inv_char h1 i c1 hipos hi hc1, inv_char h2 i c2 hipos hi hc2]
          · have e1 : ¬ (n.links.getD i none).isSome := by
              rw [inv_live h1 i hi]
              exact hpos
            have e2 : ¬ (m2.links.getD i none).isSome := by
              rw [inv_live h2 i hi, ← hbr]
              exact hpos
            rw [Option.not_isSome_iff_eq_none.mp e1, Option.not_isSome_iff_eq_none.mp e2]
      apply node_ext _ _ hch ?_ (by rw [inv_word h1, inv_word h2])
        (by rw [inv_freq h1, inv_freq h2, hmax])
        (by rw [inv_best h1, inv_best h2, hmax, hbi])
      apply List.ext_getElem?
      intro i
      by_cases hi : i < 27
      · rw [getElem?_eq_some_getD _ _ (by omega), getElem?_eq_some_getD _ _ (by omega),
          hgetD i hi]
      · rw [List.getElem?_eq_none (by omega), List.getElem?_eq_none (by omega)]

theorem buildTrie_perm {l l2 : List String} (hp : l.Perm l2) (hl : ValidL l) :
    buildTrie l = buildTrie l2 := by
  have hl2 : ValidL l2 := fun s hs => hl s (hp.mem_iff.mpr hs)
  exact inv_unique (sizeOf (buildTrie l)) _ _ [] l l2 (le_refl _)
    (buildTrie_inv l hl) (buildTrie_inv l2 hl2) (fun x => hp.count_eq x)
    (by rw [buildTrie_char, buildTrie_char])

/-! ### Queries thread the trie state through unchanged -/

theorem walkSt_spec : ∀ (cs : List Char) (t n : Node),
    walkSt t n cs = (walkPrompt n cs, t) := by
  intro cs
  induction cs with
  | nil => intro t n; rfl
  | cons c rest ih =>
      intro t n
      have he1 : walkSt t n (c :: rest) = (match pyGet n.links (charIndex c) with
        | none => ((Except.error "IndexError" : Except String (Option String)), t)
        | some none => (Except.ok none, t)
        | some (some ch) => walkSt t ch rest) := rfl
      have he2 : walkPrompt n (c :: rest) = (match pyGet n.links (charIndex c) with
        | none => (Except.error "IndexError" : Except String (Option String))
        | some none => Except.ok none
        | some (some ch) => walkPrompt ch rest) := rfl
      rw [he1, he2]
      cases pyGet n.links (charIndex c) with
      | none => rfl
      | some o =>
          cases o with
          | none => rfl
          | some ch => exact ih t ch

/-! ### Frame lemmas: what insertion does and does not touch -/

theorem nodeAt_newNode (c0 : Char) :
    ∀ idxs : List Nat, idxs ≠ [] → nodeAt (newNode c0) idxs = none := by
  intro idxs h
  cases idxs with
  | nil => exact absurd rfl h
  | cons i q2 =>
      rw [nodeAt_cons, show (newNode c0).links = List.replicate 27 none from rfl,
        getD_replicate]

theorem seed_nodeAt (n : Node) (j0 f : Nat) (i : Nat) (q2 : List Nat) :
    nodeAt (seed n j0 f) (i :: q2) = nodeAt n (i :: q2) := by
  rw [nodeAt_cons, nodeAt_cons, seed_links]

theorem compareStep_nodeAt (n : Node) (j0 f : Nat) (i : Nat) (q2 : List Nat) :
    nodeAt (compareStep n j0 f) (i :: q2) = nodeAt n (i :: q2) := by
  rw [nodeAt_cons, nodeAt_cons, compareStep_links]

theorem fixupLast_nil_links (n : Node) (f : Nat) : (fixupLast n [] f).links = n.links := by
  rw [fixupLast_nil]
  split <;> simp

theorem fixup_nil_nodeAt (n : Node) (f : Nat) (i : Nat) (q2 : List Nat) :
    nodeAt (fixupLast n [] f) (i :: q2) = nodeAt n (i :: q2) := by
  rw [nodeAt_cons, nodeAt_cons, fixupLast_nil_links]

theorem modifyLink_nodeAt_ne (n : Node) (j : Nat) (g : Node → Node) (i : Nat)
    (q2 : List Nat) (h : i ≠ j) :
    nodeAt (modifyLink n j g) (i :: q2) = nodeAt n (i :: q2) := by
  rw [nodeAt_cons, nodeAt_cons, modifyLink_getD_ne _ _ _ _ h]

theorem pass1_off : ∀ (cs : List Char) (n : Node) (f : Nat) (idxs : List Nat),
    ¬ idxs <+: cs.map chIdx → nodeAt (pass1 n cs f) idxs = nodeAt n idxs := by
  intro cs
  induction cs with
  | nil =>
      intro n f idxs hp
      cases idxs with
      | nil => exact absurd List.nil_prefix hp
      | cons i q2 => exact seed_nodeAt n 0 f i q2
  | cons c rest ih =>
      intro n f idxs hp
      cases idxs with
      | nil => exact absurd List.nil_prefix hp
      | cons i q2 =>
          show nodeAt (modifyLink (seed n (chIdx c) f) (chIdx c)
            (fun ch => pass1 ch rest f)) (i :: q2) = _
          by_cases hij : i = chIdx c
          · subst hij
            have hq2 : ¬ q2 <+: rest.map chIdx := by
              intro h
              exact hp (by rw [List.map_cons]; exact List.cons_prefix_cons.mpr ⟨rfl, h⟩)
            cases hg : (seed n (chIdx c) f).links.getD (chIdx c) none with
            | none =>
                rw [modifyLink_of_none _ _ _ hg, seed_nodeAt]
            | some ch =>
                rw [nodeAt_cons, modifyLink_getD_self _ _ _ _ hg, nodeAt_cons]
                rw [seed_links] at hg
                rw [hg]
                dsimp only
                exact ih ch f q2 hq2
          · rw [modifyLink_nodeAt_ne _ _ _ _ _ hij, seed_nodeAt]

theorem pass2_off : ∀ (cs : List Char) (n : Node) (f : Nat) (idxs : List Nat),
    ¬ idxs <+: cs.map chIdx → nodeAt (pass2 n cs f) idxs = nodeAt n idxs := by
  intro cs
  induction cs with
  | nil =>
      intro n f idxs hp
      cases idxs with
      | nil => exact absurd List.nil_prefix hp
      | cons i q2 => exact compareStep_nodeAt n 0 f i q2
  | cons c rest ih =>
      intro n f idxs hp
      cases idxs with
      | nil => exact absurd List.nil_prefix hp
      | cons i q2 =>
          show nodeAt (modifyLink (compareStep n (chIdx c) f) (chIdx c)
            (fun ch => pass2 ch rest f)) (i :: q2) = _
          by_cases hij : i = chIdx c
          · subst hij
            have hq2 : ¬ q2 <+: rest.map chIdx := by
              intro h
              exact hp (by rw [List.map_cons]; exact List.cons_prefix_cons.mpr ⟨rfl, h⟩)
            cases hg : (compareStep n (chIdx c) f).links.getD (chIdx c) none with
            | none =>
                rw [modifyLink_of_none _ _ _ hg, compareStep_nodeAt]
            | some ch =>
                rw [nodeAt_cons, modifyLink_getD_self _ _ _ _ hg, nodeAt_cons]
                rw [compareStep_links] at hg
                rw [hg]
                dsimp only
                exact ih ch f q2 hq2
          · rw [modifyLink_nodeAt_ne _ _ _ _ _ hij, compareStep_nodeAt]

theorem fixup_off : ∀ (cs : List Char) (n : Node) (f : Nat) (idxs : List Nat),
    ¬ idxs <+: cs.map chIdx → nodeAt (fixupLast n cs f) idxs = nodeAt n idxs := by
  intro cs
  induction cs with
  | nil =>
      intro n f idxs hp
      cases idxs with
      | nil => exact absurd List.nil_prefix hp
      | cons i q2 => exact fixup_nil_nodeAt n f i q2
  | cons c rest ih =>
      intro n f idxs hp
      cases idxs with
      | nil => exact absurd List.nil_prefix hp
      | cons i q2 =>
          show nodeAt (modifyLink n (chIdx c) (fun ch => fixupLast ch rest f))
            (i :: q2) = _
          by_cases hij : i = chIdx c
          · subst hij
            have hq2 : ¬ q2 <+: rest.map chIdx := by
              intro h
              exact hp (by rw [List.map_cons]; exact List.cons_prefix_cons.mpr ⟨rfl, h⟩)
            cases hg : n.links.getD (chIdx c) none with
            | none => rw [modifyLink_of_none _ _ _ hg]
            | some ch =>
                rw [nodeAt_cons, modifyLink_getD_self _ _ _ _ hg, nodeAt_cons, hg]
                dsimp only
                exact ih ch f q2 hq2
          · rw [modifyLink_nodeAt_ne _ _ _ _ _ hij]

theorem getD_eq_none_of_le (l : List (Option Node)) (j : Nat) (h : l.length ≤ j) :
    l.getD j none = none := by
  rw [List.getD_eq_getElem?_getD, List.getElem?_eq_none h]
  rfl

theorem grow_off : ∀ (cs : List Char) (n : Node) (sen : String) (idxs : List Nat),
    (∀ c ∈ cs, LC c) → ¬ idxs <+: cs.map chIdx → idxs ≠ cs.map chIdx ++ [0] →
    nodeAt (grow n cs sen).1 idxs = nodeAt n idxs := by
  intro cs
  induction cs with
  | nil =>
      intro n sen idxs _ hp hterm
      cases idxs with
      | nil => exact absurd List.nil_prefix hp
      | cons i q2 =>
          show nodeAt (Node.mk n.char (n.links.set 0
            (some (Node.mk ((n.links.getD 0 none).getD (newNode '$')).char
              ((n.links.getD 0 none).getD (newNode '$')).links (some sen)
              (((n.links.getD 0 none).getD (newNode '$')).word_freq + 1)
              ((n.links.getD 0 none).getD (newNode '$')).best_child)))
            n.word n.word_freq n.best_child) (i :: q2) = _
          rw [nodeAt_cons, nodeAt_cons, links_mk]
          by_cases hi0 : i = 0
          · subst hi0
            have hq2 : q2 ≠ [] := by
              intro h
              exact hterm (by rw [h]; rfl)
            cases hg : n.links.getD 0 none with
            | none =>
                by_cases hlen0 : 0 < n.links.length
                · rw [getD_set_self _ _ _ hlen0]
                  dsimp only [Option.getD_none]
                  cases q2 with
                  | nil => exact absurd rfl hq2
                  | cons i2 q3 =>
                      rw [nodeAt_cons,
                        show (Node.mk (newNode '$').char (newNode '$').links (some sen)
                          ((newNode '$').word_freq + 1) (newNode '$').best_child).links
                          = List.replicate 27 none from rfl, getD_replicate]
                · rw [getD_eq_none_of_le _ _ (by rw [List.length_set]; omega)]
            | some t =>
                have hlt := lt_length_of_getD_some _ _ _ hg
                rw [getD_set_self _ _ _ hlt]
                dsimp only [Option.getD_some]
                cases q2 with
                | nil => exact absurd rfl hq2
                | cons i2 q3 =>
                    rw [nodeAt_cons, nodeAt_cons, links_mk]
          · rw [getD_set_ne _ _ _ _ hi0]
  | cons c rest ih =>
      intro n sen idxs hlc hp hterm
      have hc : LC c := hlc c (by simp)
      obtain ⟨hc1, hc2⟩ := lc_chIdx hc
      cases idxs with
      | nil => exact absurd List.nil_prefix hp
      | cons i q2 =>
          show nodeAt (Node.mk n.char (n.links.set (chIdx c)
            (some (grow ((n.links.getD (chIdx c) none).getD (newNode c)) rest sen).1))
            n.word n.word_freq n.best_child) (i :: q2) = _
          rw [nodeAt_cons, nodeAt_cons, links_mk]
          by_cases hij : i = chIdx c
          · subst hij
            have hq2p : ¬ q2 <+: rest.map chIdx := by
              intro h
              exact hp (by rw [List.map_cons]; exact List.cons_prefix_cons.mpr ⟨rfl, h⟩)
            have hq2t : q2 ≠ rest.map chIdx ++ [0] := by
              intro h
              exact hterm (by rw [List.map_cons, h]; rfl)
            have hq2ne : q2 ≠ [] := by
              intro h
              exact hp (by rw [h, List.map_cons]; exact ⟨rest.map chIdx, rfl⟩)
            have hrec := ih ((n.links.getD (chIdx c) none).getD (newNode c)) sen q2
              (fun x hx => hlc x (by simp [hx])) hq2p hq2t
            cases hg : n.links.getD (chIdx c) none with
            | none =>
                rw [hg] at hrec
                dsimp only [Option.getD_none] at hrec ⊢
                by_cases hlen0 : chIdx c < n.links.length
                · rw [getD_set_self _ _ _ hlen0]
                  dsimp only
                  rw [hrec, nodeAt_newNode c q2 hq2ne]
                · rw [getD_eq_none_of_le _ _ (by rw [List.length_set]; omega)]
            | some ch0 =>
                have hlt := lt_length_of_getD_some _ _ _ hg
                rw [hg] at hrec
                dsimp only [Option.getD_some] at hrec ⊢
                rw [getD_set_self _ _ _ hlt]
                exact hrec
          · rw [getD_set_ne _ _ _ _ hij]

theorem not_snoc_prefix (q : List Nat) (d : Nat) : ¬ (q ++ [d]) <+: q := by
  intro h
  have := h.length_le
  simp at this

/-- `insert_iterative` leaves every node off the inserted sentence's path
(letter path and its terminal) untouched. -/
theorem insert_off (n : Node) (s : String) (idxs : List Nat)
    (hlc : ∀ c ∈ s.data, LC c)
    (hp : ¬ idxs <+: s.data.map chIdx) (ht : idxs ≠ s.data.map chIdx ++ [0]) :
    nodeAt (insert_iterative n s) idxs = nodeAt n idxs := by
  show nodeAt (fixupLast (pass2 (pass1 (grow n s.data s).1 s.data (grow n s.data s).2)
    s.data (grow n s.data s).2) s.data (grow n s.data s).2) idxs = nodeAt n idxs
  rw [fixup_off _ _ _ _ hp, pass2_off _ _ _ _ hp, pass1_off _ _ _ _ hp,
    grow_off _ _ _ _ hlc hp ht]

/-- When the sentence's terminal already exists, `grow` rewrites exactly
that terminal: same character, links and best child, the word re-set to the
sentence and the frequency one higher. -/
theorem grow_term : ∀ (cs : List Char) (n : Node) (sen : String) (t : Node),
    nodeAt n (cs.map chIdx ++ [0]) = some t →
    nodeAt (grow n cs sen).1 (cs.map chIdx ++ [0])
      = some (Node.mk t.char t.links (some sen) (t.word_freq + 1) t.best_child) := by
  intro cs
  induction cs with
  | nil =>
      intro n sen t h
      rw [List.map_nil, List.nil_append] at h ⊢
      rw [nodeAt_cons] at h
      show nodeAt (Node.mk n.char (n.links.set 0 (some (Node.mk
        ((n.links.getD 0 none).getD (newNode '$')).char
        ((n.links.getD 0 none).getD (newNode '$')).links (some sen)
        (((n.links.getD 0 none).getD (newNode '$')).word_freq + 1)
        ((n.links.getD 0 none).getD (newNode '$')).best_child)))
        n.word n.word_freq n.best_child) [0] = _
      rw [nodeAt_cons, links_mk]
      cases hg : n.links.getD 0 none with
      | none =>
          rw [hg] at h
          simp at h
      | some t0 =>
          rw [hg] at h
          dsimp only at h
          rw [show nodeAt t0 [] = some t0 from rfl] at h
          have ht0 : t0 = t := Option.some.inj h
          have hlt := lt_length_of_getD_some _ _ _ hg
          rw [getD_set_self _ _ _ hlt]
          dsimp only [Option.getD_some]
          subst ht0
          rfl
  | cons c rest ih =>
      intro n sen t h
      rw [List.map_cons, List.cons_append] at h ⊢
      rw [nodeAt_cons] at h
      show nodeAt (Node.mk n.char (n.links.set (chIdx c)
        (some (grow ((n.links.getD (chIdx c) none).getD (newNode c)) rest sen).1))
        n.word n.word_freq n.best_child) (chIdx c :: (rest.map chIdx ++ [0])) = _
      rw [nodeAt_cons, links_mk]
      cases hg : n.links.getD (chIdx c) none with
      | none =>
          rw [hg] at h
          simp at h
      | some ch =>
          rw [hg] at h
          dsimp only at h
          have hlt := lt_length_of_getD_some _ _ _ hg
          rw [getD_set_self _ _ _ hlt]
          dsimp only [Option.getD_some]
          exact ih ch sen t h

theorem nodeAt_isSome_of_prefix : ∀ (q p : List Nat) (n : Node),
    (nodeAt n p).isSome = true → q <+: p → (nodeAt n q).isSome = true := by
  intro q
  induction q with
  | nil => intro p n _ _; rfl
  | cons i q2 ih =>
      intro p n h hq
      obtain ⟨r, hr⟩ := hq
      subst hr
      rw [List.cons_append, nodeAt_cons] at h
      rw [nodeAt_cons]
      cases hg : n.links.getD i none with
      | none =>
          rw [hg] at h
          simp at h
      | some ch =>
          rw [hg] at h
          dsimp only at h ⊢
          exact ih (q2 ++ r) ch h ⟨r, rfl⟩

theorem pass1_shape : ∀ (cs : List Char) (n : Node) (f : Nat) (idxs : List Nat),
    (nodeAt (pass1 n cs f) idxs).isSome = (nodeAt n idxs).isSome := by
  intro cs
  induction cs with
  | nil =>
      intro n f idxs
      cases idxs with
      | nil => rfl
      | cons i q2 =>
          show (nodeAt (seed n 0 f) (i :: q2)).isSome = _
          rw [seed_nodeAt]
  | cons c rest ih =>
      intro n f idxs
      cases idxs with
      | nil => rfl
      | cons i q2 =>
          show (nodeAt (modifyLink (seed n (chIdx c) f) (chIdx c)
            (fun ch => pass1 ch rest f)) (i :: q2)).isSome = _
          by_cases hij : i = chIdx c
          · subst hij
            cases hg : (seed n (chIdx c) f).links.getD (chIdx c) none with
            | none => rw [modifyLink_of_none _ _ _ hg, seed_nodeAt]
            | some ch =>
                rw [nodeAt_cons, modifyLink_getD_self _ _ _ _ hg]
                rw [seed_links] at hg
                conv_rhs => rw [nodeAt_cons, hg]
                dsimp only
                exact ih ch f q2
          · rw [modifyLink_nodeAt_ne _ _ _ _ _ hij, seed_nodeAt]

theorem pass2_shape : ∀ (cs : List Char) (n : Node) (f : Nat) (idxs : List Nat),
    (nodeAt (pass2 n cs f) idxs).isSome = (nodeAt n idxs).isSome := by
  intro cs
  induction cs with
  | nil =>
      intro n f idxs
      cases idxs with
      | nil => rfl
      | cons i q2 =>
          show (nodeAt (compareStep n 0 f) (i :: q2)).isSome = _
          rw [compareStep_nodeAt]
  | cons c rest ih =>
      intro n f idxs
      cases idxs with
      | nil => rfl
      | cons i q2 =>
          show (nodeAt (modifyLink (compareStep n (chIdx c) f) (chIdx c)
            (fun ch => pass2 ch rest f)) (i :: q2)).isSome = _
          by_cases hij : i = chIdx c
          · subst hij
            cases hg : (compareStep n (chIdx c) f).links.getD (chIdx c) none with
            | none => rw [modifyLink_of_none _ _ _ hg, compareStep_nodeAt]
            | some ch =>
                rw [nodeAt_cons, modifyLink_getD_self _ _ _ _ hg]
                rw [compareStep_links] at hg
                conv_rhs => rw [nodeAt_cons, hg]
                dsimp only
                exact ih ch f q2
          · rw [modifyLink_nodeAt_ne _ _ _ _ _ hij, compareStep_nodeAt]

theorem fixup_shape : ∀ (cs : List Char) (n : Node) (f : Nat) (idxs : List Nat),
    (nodeAt (fixupLast n cs f) idxs).isSome = (nodeAt n idxs).isSome := by
  intro cs
  induction cs with
  | nil =>
      intro n f idxs
      cases idxs with
      | nil => rfl
      | cons i q2 => rw [fixup_nil_nodeAt]
  | cons c rest ih =>
      intro n f idxs
      cases idxs with
      | nil => rfl
      | cons i q2 =>
          show (nodeAt (modifyLink n (chIdx c)
            (fun ch => fixupLast ch rest f)) (i :: q2)).isSome = _
          by_cases hij : i = chIdx c
          · subst hij
            cases hg : n.links.getD (chIdx c) none with
            | none => rw [modifyLink_of_none _ _ _ hg]
            | some ch =>
                rw [nodeAt_cons, modifyLink_getD_self _ _ _ _ hg]
                conv_rhs => rw [nodeAt_cons, hg]
                dsimp only
                exact ih ch f q2
          · rw [modifyLink_nodeAt_ne _ _ _ _ _ hij]

/-- Growing an already-present sentence creates no node: every address is
occupied after exactly when it was occupied before. -/
theorem grow_shape (cs : List Char) (n : Node) (sen : String) (t : Node)
    (hlc : ∀ c ∈ cs, LC c)
    (h : nodeAt n (cs.map chIdx ++ [0]) = some t) (idxs : List Nat) :
    (nodeAt (grow n cs sen).1 idxs).isSome = (nodeAt n idxs).isSome := by
  by_cases hp : idxs <+: cs.map chIdx ++ [0]
  · have h1 : (nodeAt n idxs).isSome = true :=
      nodeAt_isSome_of_prefix idxs _ n (by rw [h]; rfl) hp
    have h2 : (nodeAt (grow n cs sen).1 idxs).isSome = true := by
      refine nodeAt_isSome_of_prefix idxs (cs.map chIdx ++ [0]) _ ?_ hp
      rw [grow_term cs n sen t h]
      rfl
    rw [h1, h2]
  · have hp1 : ¬ idxs <+: cs.map chIdx := fun hx =>
      hp (hx.trans (List.prefix_append _ _))
    have hp2 : idxs ≠ cs.map chIdx ++ [0] := by
      intro hx
      subst hx
      exact hp (List.prefix_refl _)
    rw [grow_off cs n sen idxs hlc hp1 hp2]

/-- Re-inserting a present sentence changes no address's occupancy: the set
of nodes and all parent-child links are unchanged. -/
theorem insert_shape (n : Node) (s : String) (t : Node)
    (hlc : ∀ c ∈ s.data, LC c)
    (h : nodeAt n (s.data.map chIdx ++ [0]) = some t) (idxs : List Nat) :
    (nodeAt (insert_iterative n s) idxs).isSome = (nodeAt n idxs).isSome := by
  show (nodeAt (fixupLast (pass2 (pass1 (grow n s.data s).1 s.data (grow n s.data s).2)
    s.data (grow n s.data s).2) s.data (grow n s.data s).2) idxs).isSome = _
  rw [fixup_shape, pass2_shape, pass1_shape, grow_shape s.data n s t hlc h idxs]

/-- Re-inserting a present sentence leaves the terminal with the same
character, links and best child, its word re-set to the sentence and its
frequency exactly one higher. -/
theorem insert_term (n : Node) (s : String) (t : Node)
    (h : nodeAt n (s.data.map chIdx ++ [0]) = some t) :
    nodeAt (insert_iterative n s) (s.data.map chIdx ++ [0])
      = some (Node.mk t.char t.links (some s) (t.word_freq + 1) t.best_child) := by
  have hn : ¬ (s.data.map chIdx ++ [0]) <+: s.data.map chIdx := not_snoc_prefix _ _
  show nodeAt (fixupLast (pass2 (pass1 (grow n s.data s).1 s.data (grow n s.data s).2)
    s.data (grow n s.data s).2) s.data (grow n s.data s).2) (s.data.map chIdx ++ [0]) = _
  rw [fixup_off _ _ _ _ hn, pass2_off _ _ _ _ hn, pass1_off _ _ _ _ hn]
  exact grow_term s.data n s t h

/-! ### Bridging: from addresses in the built trie to the invariant -/

/-- Descending the letter path to any present node carries the invariant
with it. -/
theorem inv_nodeAt (l : List String) :
    ∀ (d q : List Char) (n m : Node), Inv l q n → (∀ c ∈ d, LC c) →
      nodeAt n (d.map chIdx) = some m → Inv l (q ++ d) m := by
  intro d
  induction d with
  | nil =>
      intro q n m hInv _ hm
      have he : n = m := Option.some.inj hm
      subst he
      simpa using hInv
  | cons c tl ih =>
      intro q n m hInv hlc hm
      have hc : LC c := hlc c (by simp)
      obtain ⟨hc1, hc2⟩ := lc_chIdx hc
      rw [List.map_cons, nodeAt_cons] at hm
      cases hg : n.links.getD (chIdx c) none with
      | none =>
          rw [hg] at hm
          simp at hm
      | some ch =>
          rw [hg] at hm
          dsimp only at hm
          have hInvc := inv_child hInv (chIdx c) ch (by omega) (by omega) hg
          rw [symChar_chIdx hc] at hInvc
          have hr := ih (q ++ [c]) ch m hInvc (fun x hx => hlc x (by simp [hx])) hm
          simpa using hr

/-- A present non-root address means some corpus sentence completes the
spelled prefix. -/
theorem maxCount_pos_of_nodeAt (l : List String) :
    ∀ (d q : List Char) (n : Node), Inv l q n → (∀ c ∈ d, LC c) →
      d ≠ [] → (nodeAt n (d.map chIdx)).isSome = true → 0 < maxCount l (q ++ d) := by
  intro d
  induction d with
  | nil =>
      intro q n _ _ hne _
      exact absurd rfl hne
  | cons c tl ih =>
      intro q n hInv hlc _ hm
      have hc : LC c := hlc c (by simp)
      obtain ⟨hc1, hc2⟩ := lc_chIdx hc
      rw [List.map_cons, nodeAt_cons] at hm
      cases hg : n.links.getD (chIdx c) none with
      | none =>
          rw [hg] at hm
          simp at hm
      | some ch =>
          rw [hg] at hm
          dsimp only at hm
          have hInvc := inv_child hInv (chIdx c) ch (by omega) (by omega) hg
          rw [symChar_chIdx hc] at hInvc
          by_cases htl : tl = []
          · subst htl
            have hlive := (inv_live hInv (chIdx c) (by omega)).mp (by rw [hg]; rfl)
            have hbr : branchCount l q (chIdx c) = maxCount l (q ++ [c]) := by
              unfold branchCount
              rw [if_neg (by omega), symChar_chIdx hc]
            rw [hbr] at hlive
            exact hlive
          · have hr := ih (q ++ [c]) ch hInvc (fun x hx => hlc x (by simp [hx])) htl hm
            simpa using hr

/-- At any present prompt node that some sentence completes, the query
returns the corpus's best completion of the prompt. -/
theorem autoComplete_node (l : List String) (hl : ValidL l) (p : String)
    (hp : ∀ c ∈ p.data, LC c) (m : Node)
    (hm : nodeAt (buildTrie l) (p.data.map chIdx) = some m)
    (hpos : 0 < maxCount l p.data) :
    ∃ w, autoComplete (buildTrie l) p = .ok (some w) ∧ w ∈ l ∧ p.data <+: w.data ∧
      l.count w = maxCount l p.data ∧
      (∀ s2 ∈ l, p.data <+: s2.data → l.count s2 = l.count w →
        w = s2 ∨ lexLt w.data s2.data) := by
  have hInvm : Inv l p.data m := by
    have hr := inv_nodeAt l p.data [] (buildTrie l) m (buildTrie_inv l hl) hp hm
    simpa using hr
  obtain ⟨T, w, hchase, hchar, hword, hmem, hpre, hcnt, hfreq, htie⟩ :=
    chase_correct l hl (sizeOf m) m p.data (le_refl _) hInvm hpos
  refine ⟨w, ?_, hmem, hpre, hcnt, htie⟩
  show walkPrompt (buildTrie l) p.data = _
  rw [walkPrompt_eq l p.data [] (buildTrie l) (buildTrie_inv l hl) hp, hm]
  dsimp only
  rw [followLoop_eq_chase (sizeOf m) m (le_refl _), hchase]
  dsimp only
  rw [hword]

/-- The query on a prompt some corpus sentence extends returns the best
completion. -/
theorem autoComplete_best (l : List String) (p s : String) (hl : ValidL l)
    (hs : s ∈ l) (hp : p.data <+: s.data) :
    ∃ w, autoComplete (buildTrie l) p = .ok (some w) ∧ IsBest l p.data w := by
  have hplc : ∀ c ∈ p.data, LC c := fun c hc => hl s hs c (hp.subset hc)
  obtain ⟨m, hm, _⟩ := nodeAt_live l p.data [] (buildTrie l) (buildTrie_inv l hl) hplc
    ⟨s, hs, by simpa using hp⟩
  have hpos : 0 < maxCount l p.data := maxCount_pos ⟨s, hs, hp⟩
  obtain ⟨w, hok, hmem, hpre, hcnt, htie⟩ := autoComplete_node l hl p hplc m hm hpos
  refine ⟨w, hok, hmem, hpre, ?_, htie⟩
  intro s2 hs2 hp2
  rw [hcnt]
  exact le_maxCount hs2 hp2

theorem branchCount_zero (l : List String) (q : List Char) :
    branchCount l q 0 = cnt l q := by
  unfold branchCount
  rw [if_pos rfl]

/-- When the prefix itself ties the maximal count, the least attaining slot
is the terminal slot 0. -/
theorem bestIdx_zero {l : List String} {q : List Char} (hl : ValidL l)
    (he : cnt l q = maxCount l q) (hpos : 0 < cnt l q) :
    bestIdx l q = 0 := by
  obtain ⟨hbb, hb27, hbmin⟩ := bestIdx_spec (q := q) hl (by omega)
  by_contra hne
  have h0 : 0 < bestIdx l q := Nat.pos_of_ne_zero hne
  have hx := hbmin 0 h0
  rw [branchCount_zero] at hx
  exact hx he

theorem pass2Amended_eq : ∀ (cs : List Char) (n : Node) (f : Nat),
    pass2Amended n cs f = pass2 n cs f := by
  intro cs
  induction cs with
  | nil => intro n f; rfl
  | cons c rest ih =>
      intro n f
      show modifyLink (compareStep n (chIdx c) f) (chIdx c)
          (fun ch => pass2Amended ch rest f)
        = modifyLink (compareStep n (chIdx c) f) (chIdx c) (fun ch => pass2 ch rest f)
      have hfe : (fun ch => pass2Amended ch rest f) = (fun ch => pass2 ch rest f) := by
        funext ch
        exact ih ch f
      rw [hfe]

/-! ### The claims -/

/-- C1: for a trie built from a corpus of lowercase sentences and a prompt
that is a prefix of at least one inserted sentence, `autoComplete` returns
a sentence of the corpus that starts with the prompt, attains the highest
occurrence count among the corpus sentences starting with the prompt, and
among sentences tied at that count is lexicographically smallest. -/
theorem autoComplete_returns_best_completion (l : List String) (p s : String)
    (hl : ValidL l) (hs : s ∈ l) (hp : p.data <+: s.data) :
    ∃ w, autoComplete (buildTrie l) p = .ok (some w) ∧ IsBest l p.data w :=
  autoComplete_best l p s hl hs hp

/-- Instantiation of the C1 theorem on a concrete corpus and prompt. -/
theorem autoComplete_returns_best_completion_app :
    ValidL ["ab", "aa"] ∧ "aa" ∈ ["ab", "aa"] ∧ "a".data <+: "aa".data ∧
      ∃ w, autoComplete (buildTrie ["ab", "aa"]) "a" = .ok (some w) ∧
        IsBest ["ab", "aa"] "a".data w :=
  ⟨by decide, by decide, by decide,
    autoComplete_returns_best_completion ["ab", "aa"] "a" "aa" (by decide) (by decide)
      (by decide)⟩

/-- C2: after the build completes, every present node on an inserted path
(one some corpus sentence completes) has `best_child` pointing at one of
its children, following the best-child chain reaches a terminal `T`, `T`'s
sentence is the best completion of the node's prefix — highest count, ties
broken lexicographically — and the node's `word_freq` equals `T`'s
occurrence count. -/
theorem cache_invariant_holds (l : List String) (q : List Char)
    (hl : ValidL l) (hq : ∀ c ∈ q, LC c)
    (hsome : (nodeAt (buildTrie l) (q.map chIdx)).isSome = true)
    (hpos : 0 < maxCount l q) :
    ∃ N T w j ch, nodeAt (buildTrie l) (q.map chIdx) = some N ∧
      N.best_child = some j ∧ N.links.getD j none = some ch ∧
      chaseNode N = some T ∧ T.char = '$' ∧ T.word = some w ∧
      IsBest l q w ∧ N.word_freq = l.count w ∧ T.word_freq = l.count w := by
  obtain ⟨N, hN⟩ := Option.isSome_iff_exists.mp hsome
  have hInv : Inv l q N := by
    have hr := inv_nodeAt l q [] (buildTrie l) N (buildTrie_inv l hl) hq hN
    simpa using hr
  obtain ⟨T, w, hchase, hchar, hword, hmem, hpre, hcnt, hfreq, htie⟩ :=
    chase_correct l hl (sizeOf N) N q (le_refl _) hInv hpos
  obtain ⟨hbb, hb27, _⟩ := bestIdx_spec (q := q) hl hpos
  have hbn : N.best_child = some (bestIdx l q) := by
    rw [inv_best hInv, if_neg (by omega)]
  have hlive : (N.links.getD (bestIdx l q) none).isSome := by
    rw [inv_live hInv (bestIdx l q) hb27]
    omega
  obtain ⟨ch, hch⟩ := Option.isSome_iff_exists.mp hlive
  refine ⟨N, T, w, bestIdx l q, ch, hN, hbn, hch, hchase, hchar, hword,
    ⟨hmem, hpre, fun s2 hs2 hp2 => by rw [hcnt]; exact le_maxCount hs2 hp2, htie⟩,
    ?_, hfreq⟩
  rw [inv_freq hInv, ← hcnt]

/-- Instantiation of the C2 theorem at the node of 'a' in the trie of
["ab"]. -/
theorem cache_invariant_holds_app :
    ValidL ["ab"] ∧ (∀ c ∈ ['a'], LC c) ∧
      (nodeAt (buildTrie ["ab"]) (['a'].map chIdx)).isSome = true ∧
      0 < maxCount ["ab"] ['a'] ∧
      ∃ N T w j ch, nodeAt (buildTrie ["ab"]) (['a'].map chIdx) = some N ∧
        N.best_child = some j ∧ N.links.getD j none = some ch ∧
        chaseNode N = some T ∧ T.char = '$' ∧ T.word = some w ∧
        IsBest ["ab"] ['a'] w ∧ N.word_freq = ["ab"].count w ∧
        T.word_freq = ["ab"].count w :=
  ⟨by decide, by decide, by decide, by decide,
    cache_invariant_holds ["ab"] ['a'] (by decide) (by decide) (by decide) (by decide)⟩

/-- C3 (corrected): the comparison pass must run over all consecutive
pairs of the inserted path including the pair formed by the parent of the
terminal and the terminal; with that amendment, the repair — the
initialization pass, the full comparison pass, then the parent-of-terminal
count fixup — coincides with the implemented `update_nodes` on every node,
path and frequency. -/
theorem specRepairAmended_eq_update_nodes (n : Node) (cs : List Char) (f : Nat) :
    specRepairAmended n cs f = update_nodes n cs f := by
  unfold specRepairAmended update_nodes
  rw [pass2Amended_eq]

/-- C3 counterexample: performing the repair exactly as the specification
words it — the comparison pass excluding the terminal pair, the parent of
the terminal getting only the count fixup — yields a different trie state
than `update_nodes`: after inserting "a" into the trie built from ["ab"],
the node of 'a' ends with a different cached best child. -/
theorem specRepair_differs_from_update_nodes :
    (nodeAt (insertSpec (buildTrie ["ab"]) "a") [1]).map Node.best_child
      ≠ (nodeAt (insert_iterative (buildTrie ["ab"]) "a") [1]).map Node.best_child := by
  decide

/-- C4 (corrected): for a trie built from a lowercase corpus and a prompt
over the lowercase alphabet whose literal path is absent, `autoComplete`
returns the no-match signal `None` — no fault and no fabricated
sentence. -/
theorem autoComplete_absent_returns_none (l : List String) (p : String)
    (hl : ValidL l) (hp : ∀ c ∈ p.data, LC c)
    (habs : nodeAt (buildTrie l) (p.data.map chIdx) = none) :
    autoComplete (buildTrie l) p = .ok none := by
  show walkPrompt (buildTrie l) p.data = _
  rw [walkPrompt_eq l p.data [] (buildTrie l) (buildTrie_inv l hl) hp, habs]

/-- Instantiation of the C4 theorem: prompt "b" on the trie of ["a"]. -/
theorem autoComplete_absent_returns_none_app :
    ValidL ["a"] ∧ (∀ c ∈ "b".data, LC c) ∧
      nodeAt (buildTrie ["a"]) ("b".data.map chIdx) = none ∧
      autoComplete (buildTrie ["a"]) "b" = .ok none :=
  ⟨by decide, by decide, by rfl,
    autoComplete_absent_returns_none ["a"] "b" (by decide) (by decide) (by rfl)⟩

/-- C4 counterexample: a prompt character outside the lowercase alphabet
is not treated as "no match". '_' (code 95) maps to index −1 and Python's
negative indexing wraps to slot 26, so on the trie of ["z"] the query
fabricates the answer "z" although "_" prefixes no corpus sentence; '{'
(code 123) maps to index 27 and raises IndexError instead of returning the
no-match signal. -/
theorem autoComplete_wraps_or_faults :
    (¬ ∃ s, s ∈ ["z"] ∧ "_".data <+: s.data) ∧
      autoComplete (buildTrie ["z"]) "_" = .ok (some "z") ∧
      autoComplete (buildTrie ["a"]) "\x7b" = .error "IndexError" := by
  refine ⟨by decide, ?_, by rfl⟩
  rw [show autoComplete (buildTrie ["z"]) "_"
      = followLoop (((buildTrie ["z"]).links.getD 26 none).getD (newNode 'z'))
    from rfl]
  rw [followLoop_eq]
  rfl

/-- C5 (corrected): on a trie built from a non-empty lowercase corpus, for
every lowercase prompt whose literal path exists, the best-child chain
followed after the prompt reaches a terminal and the query returns a
sentence. -/
theorem autoComplete_present_terminates (l : List String) (p : String)
    (hl : ValidL l) (hne : l ≠ []) (hp : ∀ c ∈ p.data, LC c)
    (hpath : (nodeAt (buildTrie l) (p.data.map chIdx)).isSome = true) :
    ∃ w, autoComplete (buildTrie l) p = .ok (some w) := by
  obtain ⟨m, hm⟩ := Option.isSome_iff_exists.mp hpath
  have hpos : 0 < maxCount l p.data := by
    by_cases hd : p.data = []
    · obtain ⟨s, hs⟩ := List.exists_mem_of_ne_nil l hne
      exact maxCount_pos ⟨s, hs, by rw [hd]; exact List.nil_prefix⟩
    · have hr := maxCount_pos_of_nodeAt l p.data [] (buildTrie l)
        (buildTrie_inv l hl) hp hd hpath
      simpa using hr
  obtain ⟨w, hok, _⟩ := autoComplete_node l hl p hp m hm hpos
  exact ⟨w, hok⟩

/-- Instantiation of the C5 theorem: prompt "a" on the trie of ["a"]. -/
theorem autoComplete_present_terminates_app :
    ValidL ["a"] ∧ ["a"] ≠ ([] : List String) ∧ (∀ c ∈ "a".data, LC c) ∧
      (nodeAt (buildTrie ["a"]) ("a".data.map chIdx)).isSome = true ∧
      ∃ w, autoComplete (buildTrie ["a"]) "a" = .ok (some w) :=
  ⟨by decide, by decide, by decide, by decide,
    autoComplete_present_terminates ["a"] "a" (by decide) (by decide) (by decide)
      (by decide)⟩

/-- C5 counterexample: on the trie built from no sentences the empty
prompt's literal path exists (it is the root itself), yet the query does
not return a sentence: the root's `best_child` is `None` and reading
`.char` on it raises AttributeError. -/
theorem autoComplete_empty_trie_faults :
    nodeAt (buildTrie []) (pathIdx "") = some (buildTrie []) ∧
      autoComplete (buildTrie []) "" = .error "AttributeError" := by
  refine ⟨rfl, ?_⟩
  show followLoop (buildTrie []) = _
  rw [followLoop_eq]
  rfl

/-- C6: corpora that are permutations of each other (the same multiset of
sentences) build identical tries — the same cache state at every node — so
every prompt gets the same answer on both. -/
theorem buildTrie_order_independent (l l2 : List String) (hl : ValidL l)
    (hperm : l.Perm l2) :
    buildTrie l = buildTrie l2 ∧
      ∀ p : String, autoComplete (buildTrie l) p = autoComplete (buildTrie l2) p := by
  have he := buildTrie_perm hperm hl
  exact ⟨he, fun p => by rw [he]⟩

/-- Instantiation of the C6 theorem on a two-sentence corpus. -/
theorem buildTrie_order_independent_app :
    ValidL ["ab", "a"] ∧ List.Perm ["ab", "a"] ["a", "ab"] ∧
      (buildTrie ["ab", "a"] = buildTrie ["a", "ab"] ∧
        ∀ p : String, autoComplete (buildTrie ["ab", "a"]) p
          = autoComplete (buildTrie ["a", "ab"]) p) :=
  ⟨by decide, by decide,
    buildTrie_order_independent ["ab", "a"] ["a", "ab"] (by decide) (by decide)⟩

/-- C7: re-inserting a lowercase sentence whose terminal already exists
increments exactly that terminal's occurrence count by 1 and re-sets its
stored word to the same sentence, and creates no node: every address is
occupied after the insertion exactly when it was occupied before, so the
set of nodes and all parent-child links are unchanged. -/
theorem reinsert_increments_once (n : Node) (s : String) (t : Node)
    (hlc : ∀ c ∈ s.data, LC c)
    (hpres : nodeAt n (pathIdx s ++ [0]) = some t) :
    nodeAt (insert_iterative n s) (pathIdx s ++ [0])
        = some (Node.mk t.char t.links (some s) (t.word_freq + 1) t.best_child) ∧
      ∀ idxs, (nodeAt (insert_iterative n s) idxs).isSome = (nodeAt n idxs).isSome :=
  ⟨insert_term n s t hpres, fun idxs => insert_shape n s t hlc hpres idxs⟩

/-- Instantiation of the C7 theorem: re-inserting "a" into the trie of
["a"]. -/
theorem reinsert_increments_once_app :
    (∀ c ∈ "a".data, LC c) ∧
      nodeAt (buildTrie ["a"]) (pathIdx "a" ++ [0])
        = some (Node.mk '$' (List.replicate 27 none) (some "a") 1 none) ∧
      (nodeAt (insert_iterative (buildTrie ["a"]) "a") (pathIdx "a" ++ [0])
          = some (Node.mk '$' (List.replicate 27 none) (some "a") (1 + 1) none) ∧
        ∀ idxs, (nodeAt (insert_iterative (buildTrie ["a"]) "a") idxs).isSome
          = (nodeAt (buildTrie ["a"]) idxs).isSome) :=
  ⟨by decide, by rfl,
    reinsert_increments_once (buildTrie ["a"]) "a"
      (Node.mk '$' (List.replicate 27 none) (some "a") 1 none) (by decide) (by rfl)⟩

/-- C8: a single insertion mutates only the inserted sentence's own path —
the letter nodes and their terminal; the node at every other address,
including the whole subtree hanging off any divergence, is entirely
unchanged (same character, links, word, count and best child). -/
theorem insert_is_local (n : Node) (s : String) (idxs : List Nat)
    (hlc : ∀ c ∈ s.data, LC c)
    (hp : ¬ idxs <+: pathIdx s) (ht : idxs ≠ pathIdx s ++ [0]) :
    nodeAt (insert_iterative n s) idxs = nodeAt n idxs :=
  insert_off n s idxs hlc hp ht

/-- Instantiation of the C8 theorem: inserting "ab" into the trie of ["b"]
leaves the node of 'b' untouched. -/
theorem insert_is_local_app :
    (∀ c ∈ "ab".data, LC c) ∧ ¬ [2] <+: pathIdx "ab" ∧ [2] ≠ pathIdx "ab" ++ [0] ∧
      nodeAt (insert_iterative (buildTrie ["b"]) "ab") [2]
        = nodeAt (buildTrie ["b"]) [2] :=
  ⟨by decide, by decide, by decide,
    insert_is_local (buildTrie ["b"]) "ab" [2] (by decide) (by decide) (by decide)⟩

/-- C9: the query never mutates the trie: the state-threaded rendition of
`autoComplete` returns the trie object unchanged alongside the exact
answer `autoComplete` gives, for every trie and every prompt. -/
theorem autoComplete_pure (t : Node) (p : String) :
    autoCompleteSt t p = (autoComplete t p, t) :=
  walkSt_spec p.data t t

/-- C10: the terminal slot 0 wins every equal-frequency tie at the parent
of a terminal — a node whose own sentence ties the maximal count of its
subtree caches the terminal as best child — and consequently, among
equal-frequency completions where one sentence is a proper prefix of
another, the query prefers the shorter: its answer is the prefix sentence
or something lexicographically smaller, never the longer one. -/
theorem terminal_wins_ties (l : List String) (hl : ValidL l) :
    (∀ (q : List Char) (N : Node), (∀ c ∈ q, LC c) →
        nodeAt (buildTrie l) (q.map chIdx) = some N →
        cnt l q = maxCount l q → 0 < cnt l q →
        N.best_child = some 0) ∧
      (∀ p s1 s2 : String, s1 ∈ l → s2 ∈ l →
        p.data <+: s1.data → s1.data <+: s2.data → s1 ≠ s2 →
        l.count s1 = maxCount l p.data →
        l.count s2 = maxCount l p.data →
        ∃ w, autoComplete (buildTrie l) p = .ok (some w) ∧
          (w = s1 ∨ lexLt w.data s1.data) ∧ w ≠ s2) := by
  constructor
  · intro q N hq hN he hpos
    have hInv : Inv l q N := by
      have hr := inv_nodeAt l q [] (buildTrie l) N (buildTrie_inv l hl) hq hN
      simpa using hr
    rw [inv_best hInv, if_neg (by omega), bestIdx_zero hl he hpos]
  · intro p s1 s2 hs1 hs2 hp1 hp12 hne hc1 hc2
    obtain ⟨w, hok, hmem, hpre, hom, htie⟩ := autoComplete_best l p s1 hl hs1 hp1
    have hcw : l.count w = maxCount l p.data := by
      have h1 := hom s1 hs1 hp1
      have h2 := le_maxCount hmem hpre
      omega
    have ht1 : w = s1 ∨ lexLt w.data s1.data := htie s1 hs1 hp1 (by omega)
    have hd12 : s1.data ≠ s2.data := fun h => hne (str_data_inj h)
    have hlt12 : lexLt s1.data s2.data := lexLt_of_pre_ne hp12 hd12
    refine ⟨w, hok, ht1, ?_⟩
    intro hws2
    rcases ht1 with h | h
    · apply hne
      rw [← h]
      exact hws2
    · rw [hws2] at h
      exact lexLt_asymm hlt12 h

/-- Instantiation of the C10 theorem on the corpus ["a", "ab"]. -/
theorem terminal_wins_ties_app :
    ValidL ["a", "ab"] ∧
      ((∀ (q : List Char) (N : Node), (∀ c ∈ q, LC c) →
          nodeAt (buildTrie ["a", "ab"]) (q.map chIdx) = some N →
          cnt ["a", "ab"] q = maxCount ["a", "ab"] q → 0 < cnt ["a", "ab"] q →
          N.best_child = some 0) ∧
        (∀ p s1 s2 : String, s1 ∈ ["a", "ab"] → s2 ∈ ["a", "ab"] →
          p.data <+: s1.data → s1.data <+: s2.data → s1 ≠ s2 →
          ["a", "ab"].count s1 = maxCount ["a", "ab"] p.data →
          ["a", "ab"].count s2 = maxCount ["a", "ab"] p.data →
          ∃ w, autoComplete (buildTrie ["a", "ab"]) p = .ok (some w) ∧
            (w = s1 ∨ lexLt w.data s1.data) ∧ w ≠ s2)) :=
  ⟨by decide, terminal_wins_ties ["a", "ab"] (by decide)⟩

end Cats
